import Mathlib

/-!
# Verification of `inferno.lib.job_runner`

A shallow embedding, in Lean 4, of the dependency-aware rule scheduler in
`src/inferno/lib/job_runner.py`, together with proofs about the claims of
the specification.

The embedding models:
* rules (`Rule`) as finitely-branching trees (a rule and its direct
  sub-rules, as enumerated by `extract_subrules`);
* the Result Store / url blackboard as an association list from rule name
  to output-url list, with Python-`dict` semantics (`bbGet` is `dict.get`
  with default `None`, `bbSet` is `dict[k] = v`);
* the remote backend as oracles: a start oracle (`start` may return a job
  name or the not-started signal), and per-batch poll event streams
  (`PollEvent`), where an event is either a transient `CommError` or one
  `server.results` answer;
* side effects on the backend (job starts, kills, purges) as an explicit
  effect log (`Effect`), so that claims about killing and resource release
  can be stated;
* the unbounded `while` loops by structural recursion on the remaining
  event stream (poll loop) and on an explicit fuel (orchestrator loop),
  with `none` meaning the loop has not terminated within the supplied
  events/fuel.
-/

namespace Inferno

/-! ## Definitions: the embedded program -/

/-- A rule: a named computation unit with its direct sub-rules.
As a Lean inductive this is a finite tree, so a rule graph embedded this
way is automatically a finite DAG (sharing is by value). -/
inductive Rule where
  | mk (name : String) (subs : List Rule)

mutual

/-- Structural decidable equality on rules. -/
def Rule.decEq : (a b : Rule) → Decidable (a = b)
  | .mk n1 s1, .mk n2 s2 =>
    if hn : n1 = n2 then
      match Rule.decEqList s1 s2 with
      | isTrue hs => isTrue (by rw [hn, hs])
      | isFalse hs => isFalse (fun h => by cases h; exact hs rfl)
    else isFalse (fun h => by cases h; exact hn rfl)

/-- Structural decidable equality on lists of rules. -/
def Rule.decEqList : (a b : List Rule) → Decidable (a = b)
  | [], [] => isTrue rfl
  | [], _ :: _ => isFalse (by simp)
  | _ :: _, [] => isFalse (by simp)
  | a :: as, b :: bs =>
    match Rule.decEq a b with
    | isTrue h1 =>
      match Rule.decEqList as bs with
      | isTrue h2 => isTrue (by rw [h1, h2])
      | isFalse h2 => isFalse (fun h => by cases h; exact h2 rfl)
    | isFalse h1 => isFalse (fun h => by cases h; exact h1 rfl)

end

instance : DecidableEq Rule := Rule.decEq

/-- The rule's name (`rule.name` in the source). -/
def Rule.name : Rule → String
  | .mk n _ => n

/-- The rule's direct sub-rules. -/
def Rule.subs : Rule → List Rule
  | .mk _ s => s

/-- Modelled from the spec: `extract_subrules` lives in `inferno.lib.rule`,
which is not under `src/`; the spec describes it as the Rule Graph
Accessor's `direct_sub_rules(rule) -> list of rules`, enumerating a rule's
direct dependencies. -/
def extract_subrules (r : Rule) : List Rule :=
  r.subs

/-- Output references ("urls" in the source) are opaque tokens. -/
abbrev Url := String

/-- Remote job identifiers (disco job names). -/
abbrev JobName := String

/-- The Result Store / `urls_blackboard`: a Python dict from rule name to
output-url list, modelled as an association list (first binding wins). -/
abbrev Blackboard := List (String × List Url)

/-- `bb.get(k, None)`: the first binding for `k`, if any. -/
def bbGet : Blackboard → String → Option (List Url)
  | [], _ => none
  | p :: ps, k => if p.1 = k then some p.2 else bbGet ps k

/-- `bb[k] = v`: overwrite the binding for `k` if present, else append it. -/
def bbSet : Blackboard → String → List Url → Blackboard
  | [], k, v => [(k, v)]
  | p :: ps, k, v => if p.1 = k then (k, v) :: ps else p :: bbSet ps k v

/-- Python truthiness of `bb.get(k, None)`: `False` for a missing key and
for an empty url list. -/
def truthy (o : Option (List Url)) : Bool :=
  match o with
  | none => false
  | some l => !l.isEmpty

/-- `_get_runable_rules(rules, blackboard)` from `execute_rule`: keep the
rules all of whose sub-rules have a truthy blackboard entry. The inner
`for`/`break` loop that computes `ready` is `List.all`; appending the
ready rules in candidate order is `List.filter`. -/
def getRunableRules (rules : List Rule) (blackboard : Blackboard) : List Rule :=
  rules.filter (fun rule =>
    (extract_subrules rule).all (fun sub => truthy (bbGet blackboard sub.name)))

/-- Status strings reported by the backend (the source compares against
the literals `"ready"` and `"dead"`). -/
abbrev Status := String

/-- One interaction of the poll loop with the backend: either a transient
`CommError` raised by `server.results`, or one `(inactive, active)` answer. -/
inductive PollEvent where
  | commError
  | results (inactive : List (JobName × Status × List Url)) (active : List JobName)
deriving DecidableEq

/-- The exceptions the runner can raise. -/
inductive ExecError where
  | notEnoughBlobs (ruleName : String)
  | jobFailed
  | keyError
  | waitFailed (job : JobName)
deriving DecidableEq

/-- Backend side effects performed by the runner, recorded as a log so
that claims about job starts, kills and purges can be stated. -/
inductive Effect where
  | start (ruleName : String) (urls : List Url)
  | kill (job : JobName)
  | purge (job : JobName)
deriving DecidableEq

/-- `urls = []; for sub_rule in extract_subrules(rule): urls += urls_blackboard[sub_rule.name]`.
Direct dict indexing: `none` models the `KeyError` on a missing key. -/
def resolveInputs (subs : List Rule) (bb : Blackboard) : Option (List Url) :=
  match subs with
  | [] => some []
  | s :: rest =>
    match bbGet bb s.name with
    | none => none
    | some us => (resolveInputs rest bb).map (fun tail => us ++ tail)

/-- The job-start pass of `_run_concurrent_rules`: for each rule resolve
its inputs and call `_start_job`; a not-started job (`startO r = none`)
raises `'There is not enough blobs to run %s' % rule.name`. Returns the
effect log and, on success, the started job names (`jobs`, which also
stand for the accumulated `inferno_jobs`). -/
def startPhase : List Rule → (Rule → Option JobName) → Blackboard →
    List Effect × Except ExecError (List JobName)
  | [], _, _ => ([], .ok [])
  | r :: rest, startO, bb =>
    match resolveInputs (extract_subrules r) bb with
    | none => ([], .error .keyError)
    | some urls =>
      match startO r with
      | some j =>
        let res := startPhase rest startO bb
        (.start r.name urls :: res.1, res.2.map (fun js => j :: js))
      | none => ([.start r.name urls], .error (.notEnoughBlobs r.name))

/-- The characters before the first `'@'` (all of them when none occurs). -/
def takeUntilAt : List Char → List Char
  | [] => []
  | c :: cs => if c = '@' then [] else c :: takeUntilAt cs

/-- `_get_rule_name(disco_job_name)`: `disco_job_name.rsplit('@')[0]`,
i.e. the part of the job name before its first `@` (the whole name when
it has no `@`). -/
def getRuleName (jobName : JobName) : String :=
  ⟨takeUntilAt jobName.data⟩

/-- One `for jobname, (status, results) in inactive:` pass — record
`ready` results into `job_results` and set `stop` on a `dead` status;
any other status is silently dropped. -/
def processInactive (inactive : List (JobName × Status × List Url))
    (res : Blackboard) (stop : Bool) : Blackboard × Bool :=
  inactive.foldl
    (fun acc e =>
      if e.2.1 == "ready" then (bbSet acc.1 (getRuleName e.1) e.2.2, acc.2)
      else if e.2.1 == "dead" then (acc.1, true)
      else acc)
    (res, stop)

/-- The `while jobs:` poll loop of `_run_concurrent_rules`, driven by the
stream of `server.results` answers; a `CommError` is caught and the loop
`continue`s with the same job set. `none` means the stream ran out while
jobs were still active (the real loop would keep polling). On exit,
returns `(job_results, jobs, stop)`: the remaining job list and the abort
flag (`stop` breaks the loop at the end of the iteration that set it). -/
def pollLoop (events : List PollEvent) (jobs : List JobName) (res : Blackboard) :
    Option (Blackboard × List JobName × Bool) :=
  match jobs with
  | [] => some (res, [], false)
  | _ :: _ =>
    match events with
    | [] => none
    | .commError :: evs => pollLoop evs jobs res
    | .results inactive active :: evs =>
      let out := processInactive inactive res false
      if out.2 then some (out.1, active, true) else pollLoop evs active out.1

/-- `_run_concurrent_rules(rule_list, settings, urls_blackboard)`: start a
job per rule (aborting on a not-started job), poll until all jobs finish
or one dies, and on `stop` run
`for jobname, _ in jobs: server.kill(jobname); raise ...` — note the
`raise` in the source sits inside the `for` body, so at most the first
remaining job is killed, and an empty remaining list raises nothing.
Returns the effect log and `(inferno_jobs, job_results)` on success. -/
def runConcurrentRules (ruleList : List Rule) (startO : Rule → Option JobName)
    (backend : List JobName → List PollEvent) (bb : Blackboard) :
    List Effect × Option (Except ExecError (List JobName × Blackboard)) :=
  match startPhase ruleList startO bb with
  | (log, .error e) => (log, some (.error e))
  | (log, .ok jobs) =>
    match pollLoop (backend jobs) jobs [] with
    | none => (log, none)
    | some (jobResults, remaining, stop) =>
      if stop then
        match remaining with
        | [] => (log, some (.ok (jobs, jobResults)))
        | j :: _ => (log ++ [.kill j], some (.error .jobFailed))
      else (log, some (.ok (jobs, jobResults)))

/-- `_run_sequential_rules(rule_list, settings, urls_blackboard)`: start
each rule's job with its resolved inputs and block on it. `waitO` models
`InfernoJob.wait`. Modelled from the spec for the failure case: `wait`
blocks until the job's terminal status and a failed terminal job surfaces
as an error (`InfernoJob.wait` is in `inferno.lib.job`, not under `src/`;
the spec's Sequential Execution Runner "start its job and block until it
reaches a terminal status"). -/
def runSequentialRules : List Rule → (Rule → Option JobName) →
    (JobName → Except ExecError Unit) → Blackboard → List Effect × Except ExecError Unit
  | [], _, _, _ => ([], .ok ())
  | r :: rest, startO, waitO, bb =>
    match resolveInputs (extract_subrules r) bb with
    | none => ([], .error .keyError)
    | some urls =>
      match startO r with
      | none => ([.start r.name urls], .error (.notEnoughBlobs r.name))
      | some j =>
        match waitO j with
        | .error e => ([.start r.name urls], .error e)
        | .ok _ =>
          let res := runSequentialRules rest startO waitO bb
          (.start r.name urls :: res.1, res.2)

/-- Decidable equality for `Except`, so runner outcomes can be compared
by `decide`. -/
instance {ε α : Type _} [DecidableEq ε] [DecidableEq α] : DecidableEq (Except ε α)
  | .error x, .error y =>
    if h : x = y then .isTrue (by rw [h]) else .isFalse (fun he => h (by cases he; rfl))
  | .error _, .ok _ => .isFalse (fun he => Except.noConfusion he)
  | .ok _, .error _ => .isFalse (fun he => Except.noConfusion he)
  | .ok x, .ok y =>
    if h : x = y then .isTrue (by rw [h]) else .isFalse (fun he => h (by cases he; rfl))

mutual

/-- Modelled from the spec: `flatten_rules` (in `inferno.lib.rule`, not
under `src/`) — "decomposing a possibly-nested rule into a flat rule
list"; together with `deduplicate_rules` it realises
`flatten_and_dedupe(root_rule) -> ordered list of unique rules, root
last`, so the flattened order lists a rule's sub-rules before the rule
itself and the root last (post-order). -/
def flatten_rules : Rule → List Rule
  | .mk n subs => flattenRulesList subs ++ [.mk n subs]

/-- The flattened rule lists of a list of rules, concatenated in order. -/
def flattenRulesList : List Rule → List Rule
  | [] => []
  | r :: rs => flatten_rules r ++ flattenRulesList rs

end

/-- Recursion for `deduplicate_rules`: drop a rule whose name was already
seen, keep the first occurrence otherwise. -/
def dedupAux : List Rule → List String → List Rule
  | [], _ => []
  | r :: rest, seen =>
    if r.name ∈ seen then dedupAux rest seen
    else r :: dedupAux rest (r.name :: seen)

/-- Modelled from the spec: `deduplicate_rules` (in `inferno.lib.rule`,
not under `src/`) — "deduplicating repeated sub-rules" into an "ordered
list of unique rules"; rules are "identified by a unique name within a
graph", so deduplication keeps the first occurrence of each name. -/
def deduplicate_rules (rules : List Rule) : List Rule :=
  dedupAux rules []

/-- `all_rules = deduplicate_rules(flatten_rules(rule_))`. -/
def allRulesOf (root : Rule) : List Rule :=
  deduplicate_rules (flatten_rules root)

/-- `rule not in runable_rules`, as the Boolean predicate used by the
orchestrator's list comprehension. -/
def notIn (runable : List Rule) (rule : Rule) : Bool :=
  decide (rule ∉ runable)

/-- `for key, value in ret.iteritems(): urls_blackboard[key] = value`. -/
def foldResults (bb : Blackboard) (ret : Blackboard) : Blackboard :=
  ret.foldl (fun acc kv => bbSet acc kv.1 kv.2) bb

/-- The `while sub_rules:` loop of `execute_rule`, with explicit fuel
bounding the number of iterations (`none` means the loop has not finished
within `fuel` iterations, or a batch's poll stream ran dry). `backends i`
supplies the backend's poll answers for the `i`-th batch. On success
returns the final blackboard, the accumulated `inferno_jobs`, and the
batches in the order they ran. -/
def execLoop (startO : Rule → Option JobName)
    (backends : Nat → List JobName → List PollEvent) :
    Nat → List Rule → Blackboard → Nat →
    List Effect × Option (Except ExecError (Blackboard × List JobName × List (List Rule)))
  | _, [], bb, _ => ([], some (.ok (bb, [], [])))
  | 0, _ :: _, _, _ => ([], none)
  | fuel + 1, r :: rs, bb, i =>
    let runable := getRunableRules (r :: rs) bb
    match runConcurrentRules runable startO (backends i) bb with
    | (log, none) => (log, none)
    | (log, some (.error e)) => (log, some (.error e))
    | (log, some (.ok (jobs, ret))) =>
      match execLoop startO backends fuel
          ((r :: rs).filter (notIn runable))
          (foldResults bb ret) (i + 1) with
      | (log2, none) => (log ++ log2, none)
      | (log2, some (.error e)) => (log ++ log2, some (.error e))
      | (log2, some (.ok (bbF, jobsF, hist))) =>
        (log ++ log2, some (.ok (bbF, jobs ++ jobsF, runable :: hist)))

/-- The `(sub_rules, urls_blackboard)` states at the head of each
iteration of the `while sub_rules:` loop driven by `execLoop` with the
same arguments; the trace includes the state at which the loop exits,
errors, or runs out of fuel/poll answers. -/
def loopStates (startO : Rule → Option JobName)
    (backends : Nat → List JobName → List PollEvent) :
    Nat → List Rule → Blackboard → Nat → List (List Rule × Blackboard)
  | _, [], bb, _ => [([], bb)]
  | 0, r :: rs, bb, _ => [(r :: rs, bb)]
  | fuel + 1, r :: rs, bb, i =>
    let runable := getRunableRules (r :: rs) bb
    match runConcurrentRules runable startO (backends i) bb with
    | (_, none) => [(r :: rs, bb)]
    | (_, some (.error _)) => [(r :: rs, bb)]
    | (_, some (.ok (_, ret))) =>
      (r :: rs, bb) ::
        loopStates startO backends fuel
          ((r :: rs).filter (notIn runable))
          (foldResults bb ret) (i + 1)

/-- `execute_rule(rule_, settings)`: flatten and deduplicate the graph,
initialize the blackboard with every rule's name mapped to `[]`, run the
sub-rules (`all_rules[:-1]`) in concurrent batches to a fixed point,
then run the terminal rule (`all_rules[-1:]`) sequentially, and finally
purge the accumulated sub-jobs. The purge loop sits inside the `try`
after `_run_sequential_rules`, so it runs only when the terminal rule
ran normally; the `except` clause re-raises any exception. On success
returns the batch history and the accumulated `inferno_jobs`. -/
def executeRule (fuel : Nat) (root : Rule) (startO : Rule → Option JobName)
    (backends : Nat → List JobName → List PollEvent)
    (waitO : JobName → Except ExecError Unit) :
    List Effect × Option (Except ExecError (List (List Rule) × List JobName)) :=
  let allRules := allRulesOf root
  let bb0 := allRules.foldl (fun acc r => bbSet acc r.name []) []
  let parent := allRules.drop (allRules.length - 1)
  let subRules := allRules.take (allRules.length - 1)
  match execLoop startO backends fuel subRules bb0 0 with
  | (log, none) => (log, none)
  | (log, some (.error e)) => (log, some (.error e))
  | (log, some (.ok (bbF, infJobs, hist))) =>
    match runSequentialRules parent startO waitO bbF with
    | (log2, .error e) => (log ++ log2, some (.error e))
    | (log2, .ok _) =>
      (log ++ log2 ++ infJobs.map Effect.purge, some (.ok (hist, infJobs)))

/-- `all_rules[:-1]`: the sub-rule set the orchestrator's loop runs. -/
def subRulesOf (root : Rule) : List Rule :=
  (allRulesOf root).take ((allRulesOf root).length - 1)

/-- A backend in which every poll reports every polled job finished
`ready`, with outputs given by `out` for the job's rule. -/
def happyBackend (out : String → List Url) : Nat → List JobName → List PollEvent :=
  fun _ js => [.results (js.map (fun j => (j, ("ready", out (getRuleName j))))) []]

/-- The rule name recorded by a start effect, if any. -/
def startName : Effect → Option String
  | .start n _ => some n
  | _ => none

/-- The backend reported, somewhere in `events`, the job of rule `k` as
`ready` with output references `v`. -/
def ReadyReported (events : List PollEvent) (k : String) (v : List Url) : Prop :=
  ∃ inactive active, PollEvent.results inactive active ∈ events ∧
    ∃ jb, (jb, ("ready", v)) ∈ inactive ∧ getRuleName jb = k

/-- A well-formed backend mentions, in the `inactive` list of any poll
answer for a started job set `js`, only job names from `js`. -/
def WellFormedBackend (backends : Nat → List JobName → List PollEvent) : Prop :=
  ∀ i js, ∀ ev ∈ backends i js, ∀ inactive active, ev = PollEvent.results inactive active →
    ∀ p ∈ inactive, p.1 ∈ js

/-! ## Theorems -/

theorem truthy_iff (o : Option (List Url)) :
    truthy o = true ↔ ∃ l, o = some l ∧ l ≠ [] := by
  cases o with
  | none => simp [truthy]
  | some l =>
    simp [truthy, List.isEmpty_iff]

theorem mem_getRunableRules {rules : List Rule} {bb : Blackboard} {r : Rule} :
    r ∈ getRunableRules rules bb ↔
      r ∈ rules ∧ ∀ s ∈ extract_subrules r, ∃ l, bbGet bb s.name = some l ∧ l ≠ [] := by
  unfold getRunableRules
  rw [List.mem_filter]
  constructor
  · rintro ⟨hr, hall⟩
    refine ⟨hr, ?_⟩
    intro s hs
    rw [List.all_eq_true] at hall
    exact (truthy_iff _).mp (hall s hs)
  · rintro ⟨hr, hall⟩
    refine ⟨hr, ?_⟩
    rw [List.all_eq_true]
    intro s hs
    exact (truthy_iff _).mpr (hall s hs)

/-- `C3`: For every candidate rule list and every Result Store, the
Readiness Evaluator returns exactly the candidates all of whose direct
sub-rules map to a non-empty output-reference sequence in the store
(soundness and completeness, stated as a membership `iff`), and a
candidate with no sub-rules is always returned. -/
theorem getRunableRules_correct (rules : List Rule) (bb : Blackboard) (r : Rule) :
    (r ∈ getRunableRules rules bb ↔
      r ∈ rules ∧ ∀ s ∈ extract_subrules r, ∃ l, bbGet bb s.name = some l ∧ l ≠ []) ∧
    (extract_subrules r = [] → r ∈ rules → r ∈ getRunableRules rules bb) := by
  refine ⟨mem_getRunableRules, ?_⟩
  intro hnone hr
  exact mem_getRunableRules.mpr ⟨hr, by simp [hnone]⟩

/-- Witness for `C3` on a concrete store: with `a ↦ [u]` in the store, the
rule `b` (sole sub-rule `a`) is ready and the sub-rule-free rule `a` is
always ready. -/
theorem getRunableRules_correct_witness :
    let a := Rule.mk "a" []
    let b := Rule.mk "b" [a]
    let bb : Blackboard := [("a", ["u"]), ("b", [])]
    b ∈ getRunableRules [a, b] bb ∧ a ∈ getRunableRules [a, b] bb := by
  intro a b bb
  constructor
  · exact (getRunableRules_correct [a, b] bb b).1.mpr (by decide)
  · exact (getRunableRules_correct [a, b] bb a).2 (by decide) (by decide)

/-- `C10` counterexample: on the candidate list `[a, a]` (the ready rule
`a` listed twice) the Readiness Evaluator returns `[a, a]`, so a ready
rule does not appear in the output exactly once. -/
theorem getRunableRules_dup_counterexample :
    getRunableRules [Rule.mk "a" [], Rule.mk "a" []] [] =
      [Rule.mk "a" [], Rule.mk "a" []] ∧
    ¬ (getRunableRules [Rule.mk "a" [], Rule.mk "a" []] []).count (Rule.mk "a" []) = 1 := by
  decide

/-- `C10` (amended): the Readiness Evaluator's output is `rules.filter` of
the readiness predicate, hence an order-preserving sub-list of the
candidate list; when the candidate list is duplicate-free, each ready rule
appears in the output exactly once, in the input's relative order. -/
theorem getRunableRules_sublist (rules : List Rule) (bb : Blackboard) :
    (getRunableRules rules bb).Sublist rules ∧
    (rules.Nodup → ∀ r ∈ getRunableRules rules bb, (getRunableRules rules bb).count r = 1) := by
  constructor
  · exact List.filter_sublist rules
  · intro hnd r hr
    exact List.count_eq_one_of_mem (hnd.sublist (List.filter_sublist rules)) hr

/-- Witness for `C10` (amended) at a concrete input: on the duplicate-free
candidate list `[a, b]` with only `a` ready, the output is `[a]` and `a`
appears exactly once. -/
theorem getRunableRules_sublist_witness :
    (getRunableRules [Rule.mk "a" [], Rule.mk "b" [Rule.mk "c" []]] []).Sublist
      [Rule.mk "a" [], Rule.mk "b" [Rule.mk "c" []]] ∧
    (getRunableRules [Rule.mk "a" [], Rule.mk "b" [Rule.mk "c" []]] []).count (Rule.mk "a" []) = 1 := by
  refine ⟨(getRunableRules_sublist _ []).1, ?_⟩
  exact (getRunableRules_sublist _ []).2 (by decide) (Rule.mk "a" []) (by decide)

theorem pollLoop_commError_elim (es₁ es₂ : List PollEvent) (jobs : List JobName)
    (res : Blackboard) :
    pollLoop (es₁ ++ .commError :: es₂) jobs res = pollLoop (es₁ ++ es₂) jobs res := by
  induction es₁ generalizing jobs res with
  | nil =>
    cases jobs with
    | nil => simp [pollLoop]
    | cons j js => rfl
  | cons e es ih =>
    cases jobs with
    | nil => simp [pollLoop]
    | cons j js =>
      cases e with
      | commError => simpa [pollLoop] using ih (j :: js) res
      | results inactive active =>
        simp only [List.cons_append, pollLoop]
        split
        · rfl
        · exact ih active _

/-- `C5`: a transient `CommError` raised while polling changes no recorded
status or result and never aborts: the coordinator's outcome with the
`CommError` inserted anywhere in the backend's answer stream is exactly
the outcome without it (so it never surfaces to the caller of `execute`),
and the poll after the `CommError` is issued for the exact same job set
with the same accumulated results. -/
theorem commError_poll_retry (ruleList : List Rule) (startO : Rule → Option JobName)
    (bb : Blackboard) (es₁ es₂ : List PollEvent) (j : JobName) (js : List JobName)
    (res : Blackboard) :
    runConcurrentRules ruleList startO (fun _ => es₁ ++ .commError :: es₂) bb =
      runConcurrentRules ruleList startO (fun _ => es₁ ++ es₂) bb ∧
    pollLoop (.commError :: es₂) (j :: js) res = pollLoop es₂ (j :: js) res := by
  constructor
  · simp only [runConcurrentRules, pollLoop_commError_elim]
  · rfl

/-- `C1` (failing input): a batch of two dependency-free rules `a`, `b`
whose jobs finish in the same poll round, `a` `ready` with `["u"]` and `b`
`dead`. The remaining active list is empty, so the `for jobname, _ in jobs`
kill loop never executes its `raise`: `_run_concurrent_rules` raises
nothing — although its docstring promises `Exception, if ... one of the
jobs dies` — kills nothing, and returns the partial result `{a: ["u"]}`,
which `execute_rule` then folds into the Result Store. -/
theorem deadJob_partialSuccess :
    runConcurrentRules [Rule.mk "a" [], Rule.mk "b" []]
        (fun r => some (r.name ++ "@1"))
        (fun _ => [PollEvent.results [("a@1", ("ready", ["u"])), ("b@1", ("dead", []))] []])
        [] =
      ([Effect.start "a" [], Effect.start "b" []],
        some (.ok (["a@1", "b@1"], [("a", ["u"])]))) := by
  rfl

theorem startPhase_log_starts {rules : List Rule} {startO : Rule → Option JobName}
    {bb : Blackboard} :
    ∀ e ∈ (startPhase rules startO bb).1, ∃ n urls, e = Effect.start n urls := by
  induction rules with
  | nil => intro e he; simp [startPhase] at he
  | cons r rest ih =>
    intro e he
    simp only [startPhase] at he
    rcases hres : resolveInputs (extract_subrules r) bb with _ | urls <;>
      rw [hres] at he
    · simp at he
    · rcases hstart : startO r with _ | jn <;> rw [hstart] at he
      · simp at he
        exact ⟨r.name, urls, he⟩
      · simp at he
        rcases he with he | he
        · exact ⟨r.name, urls, he⟩
        · exact ih e he

theorem startPhase_notEnoughBlobs {rules : List Rule} {startO : Rule → Option JobName}
    {bb : Blackboard} {n : String}
    (h : (startPhase rules startO bb).2 = .error (.notEnoughBlobs n)) :
    ∃ r ∈ rules, r.name = n ∧ startO r = none := by
  induction rules with
  | nil => simp [startPhase] at h
  | cons r rest ih =>
    simp only [startPhase] at h
    rcases hres : resolveInputs (extract_subrules r) bb with _ | urls <;>
      rw [hres] at h
    · simp at h
    · rcases hstart : startO r with _ | jn <;> rw [hstart] at h
      · simp at h
        exact ⟨r, by simp, h, hstart⟩
      · simp only at h
        rcases hrec : (startPhase rest startO bb).2 with e | v <;>
          rw [hrec] at h <;> simp [Except.map] at h
        subst h
        obtain ⟨r', hr', hn, hs⟩ := ih hrec
        exact ⟨r', by simp [hr'], hn, hs⟩

theorem runConcurrent_notEnoughBlobs {ruleList : List Rule}
    {startO : Rule → Option JobName} {backend : List JobName → List PollEvent}
    {bb : Blackboard} {n : String}
    (h : (runConcurrentRules ruleList startO backend bb).2 =
      some (.error (.notEnoughBlobs n))) :
    (startPhase ruleList startO bb).2 = .error (.notEnoughBlobs n) ∧
    (runConcurrentRules ruleList startO backend bb).1 = (startPhase ruleList startO bb).1 := by
  unfold runConcurrentRules at h ⊢
  rcases hsp : startPhase ruleList startO bb with ⟨log, st⟩
  rw [hsp] at h
  cases st with
  | error e =>
    simp at h ⊢
    simp [h]
  | ok jobs =>
    dsimp only at h
    rcases hpl : pollLoop (backend jobs) jobs [] with _ | ⟨jr, remaining, stop⟩ <;>
      rw [hpl] at h
    · simp at h
    · cases stop with
      | false => simp at h
      | true =>
        cases remaining with
        | nil => simp at h
        | cons j rest => simp at h

/-- `C2` counterexample: batch `[a, b]` where `a`'s job starts (handle
`a@1`) and `b` signals not-started. The coordinator raises the
"not enough blobs" error naming `b`, but its effect log is two job starts
and no kill: the already-started job `a@1` is left running, not killed
before the error propagates as the claim states. -/
theorem startFailure_counterexample :
    runConcurrentRules [Rule.mk "a" [], Rule.mk "b" []]
        (fun r => if r.name == "a" then some "a@1" else none) (fun _ => []) [] =
      ([Effect.start "a" [], Effect.start "b" []],
        some (.error (.notEnoughBlobs "b"))) := by
  rfl

/-- `C2` (amended): if the adapter signals not-started for a rule of the
batch, the coordinator aborts immediately with the "not enough blobs"
error naming that rule and returns no partial results — but the jobs it
already started in that batch-construction pass are NOT killed before the
error propagates: every effect in its log is a job start (no kill is ever
issued on this path). -/
theorem startFailure_aborts (ruleList : List Rule) (startO : Rule → Option JobName)
    (backend : List JobName → List PollEvent) (bb : Blackboard) (n : String)
    (h : (runConcurrentRules ruleList startO backend bb).2 =
      some (.error (.notEnoughBlobs n))) :
    (∃ r ∈ ruleList, r.name = n ∧ startO r = none) ∧
    ∀ e ∈ (runConcurrentRules ruleList startO backend bb).1,
      ∃ m urls, e = Effect.start m urls := by
  obtain ⟨hsp, hlog⟩ := runConcurrent_notEnoughBlobs h
  refine ⟨startPhase_notEnoughBlobs hsp, ?_⟩
  rw [hlog]
  exact startPhase_log_starts

/-- Witness for `C2` (amended) at the concrete failing batch `[a, b]`. -/
theorem startFailure_aborts_witness :
    (∃ r ∈ [Rule.mk "a" [], Rule.mk "b" []], r.name = "b" ∧
      (fun r : Rule => if r.name == "a" then some "a@1" else none) r = none) ∧
    ∀ e ∈ (runConcurrentRules [Rule.mk "a" [], Rule.mk "b" []]
        (fun r => if r.name == "a" then some "a@1" else none) (fun _ => []) []).1,
      ∃ m urls, e = Effect.start m urls :=
  startFailure_aborts _ _ _ _ _ (by rfl)

theorem resolveInputs_concat {subs : List Rule} {bb : Blackboard} {urls : List Url}
    (h : resolveInputs subs bb = some urls) :
    urls = (subs.map (fun s => (bbGet bb s.name).getD [])).flatten := by
  induction subs generalizing urls with
  | nil =>
    simp [resolveInputs] at h
    simp [← h]
  | cons s rest ih =>
    simp only [resolveInputs] at h
    rcases hb : bbGet bb s.name with _ | us <;> rw [hb] at h
    · simp at h
    · rcases hr : resolveInputs rest bb with _ | tail <;> rw [hr] at h <;> simp at h
      rw [← h, ih hr]
      simp [hb]

theorem startPhase_start_resolved {rules : List Rule} {startO : Rule → Option JobName}
    {bb : Blackboard} {n : String} {urls : List Url}
    (h : Effect.start n urls ∈ (startPhase rules startO bb).1) :
    ∃ r ∈ rules, r.name = n ∧ resolveInputs (extract_subrules r) bb = some urls := by
  induction rules with
  | nil => simp [startPhase] at h
  | cons r rest ih =>
    simp only [startPhase] at h
    rcases hres : resolveInputs (extract_subrules r) bb with _ | us <;> rw [hres] at h
    · simp at h
    · rcases hstart : startO r with _ | j <;> rw [hstart] at h
      · simp at h
        exact ⟨r, by simp, h.1.symm, by rw [hres, h.2]⟩
      · simp at h
        rcases h with ⟨hn, hu⟩ | h
        · exact ⟨r, by simp, hn.symm, by rw [hres, hu]⟩
        · obtain ⟨r', hr', hn, hres'⟩ := ih h
          exact ⟨r', by simp [hr'], hn, hres'⟩

theorem runConcurrent_log_start_mem {ruleList : List Rule} {startO : Rule → Option JobName}
    {backend : List JobName → List PollEvent} {bb : Blackboard} {n : String} {urls : List Url}
    (h : Effect.start n urls ∈ (runConcurrentRules ruleList startO backend bb).1) :
    Effect.start n urls ∈ (startPhase ruleList startO bb).1 := by
  unfold runConcurrentRules at h
  rcases hsp : startPhase ruleList startO bb with ⟨log, st⟩
  rw [hsp] at h
  cases st with
  | error e => simpa using h
  | ok jobs =>
    dsimp only at h
    rcases hpl : pollLoop (backend jobs) jobs [] with _ | ⟨jr, remaining, stop⟩ <;>
      rw [hpl] at h
    · exact h
    · cases stop with
      | false => exact h
      | true =>
        cases remaining with
        | nil => exact h
        | cons j rest =>
          rcases List.mem_append.mp h with h' | h'
          · exact h'
          · simp at h'

theorem runSequential_start_resolved {rules : List Rule} {startO : Rule → Option JobName}
    {waitO : JobName → Except ExecError Unit} {bb : Blackboard} {n : String} {urls : List Url}
    (h : Effect.start n urls ∈ (runSequentialRules rules startO waitO bb).1) :
    ∃ r ∈ rules, r.name = n ∧ resolveInputs (extract_subrules r) bb = some urls := by
  induction rules with
  | nil => simp [runSequentialRules] at h
  | cons r rest ih =>
    simp only [runSequentialRules] at h
    rcases hres : resolveInputs (extract_subrules r) bb with _ | us <;> rw [hres] at h
    · simp at h
    · rcases hstart : startO r with _ | j <;> rw [hstart] at h
      · simp at h
        exact ⟨r, by simp, h.1.symm, by rw [hres, h.2]⟩
      · dsimp only at h
        rcases hw : waitO j with e | u <;> rw [hw] at h
        · simp at h
          exact ⟨r, by simp, h.1.symm, by rw [hres, h.2]⟩
        · simp at h
          rcases h with ⟨hn, hu⟩ | h
          · exact ⟨r, by simp, hn.symm, by rw [hres, hu]⟩
          · obtain ⟨r', hr', hn, hres'⟩ := ih h
            exact ⟨r', by simp [hr'], hn, hres'⟩

/-- `C6`: every job started by the Concurrent Execution Coordinator or by
the Sequential Execution Runner is started with exactly the concatenation,
in the order the rule's direct sub-rules are enumerated, of the Result
Store entries of those sub-rules. -/
theorem start_inputs_concatenated (ruleList : List Rule) (startO : Rule → Option JobName)
    (backend : List JobName → List PollEvent) (waitO : JobName → Except ExecError Unit)
    (bb : Blackboard) (n : String) (urls : List Url) :
    (Effect.start n urls ∈ (runConcurrentRules ruleList startO backend bb).1 →
      ∃ r ∈ ruleList, r.name = n ∧
        urls = ((extract_subrules r).map (fun s => (bbGet bb s.name).getD [])).flatten) ∧
    (Effect.start n urls ∈ (runSequentialRules ruleList startO waitO bb).1 →
      ∃ r ∈ ruleList, r.name = n ∧
        urls = ((extract_subrules r).map (fun s => (bbGet bb s.name).getD [])).flatten) := by
  constructor
  · intro h
    obtain ⟨r, hr, hn, hres⟩ := startPhase_start_resolved (runConcurrent_log_start_mem h)
    exact ⟨r, hr, hn, resolveInputs_concat hres⟩
  · intro h
    obtain ⟨r, hr, hn, hres⟩ := runSequential_start_resolved h
    exact ⟨r, hr, hn, resolveInputs_concat hres⟩

/-- Witness for `C6`: the rule `c` with sub-rules `a`, `b` and the store
`a ↦ ["a1"], b ↦ ["b1"]` starts c's job with inputs `["a1", "b1"]`. -/
theorem start_inputs_concatenated_witness :
    ∃ r ∈ [Rule.mk "c" [Rule.mk "a" [], Rule.mk "b" []]], r.name = "c" ∧
      ["a1", "b1"] = ((extract_subrules r).map
        (fun s => (bbGet [("a", ["a1"]), ("b", ["b1"])] s.name).getD [])).flatten :=
  (start_inputs_concatenated [Rule.mk "c" [Rule.mk "a" [], Rule.mk "b" []]]
      (fun _ => some "c@1") (fun _ => []) (fun _ => .ok ())
      [("a", ["a1"]), ("b", ["b1"])] "c" ["a1", "b1"]).1 (by decide)

theorem runSequential_log_starts {rules : List Rule} {startO : Rule → Option JobName}
    {waitO : JobName → Except ExecError Unit} {bb : Blackboard} :
    ∀ e ∈ (runSequentialRules rules startO waitO bb).1, ∃ n urls, e = Effect.start n urls := by
  induction rules with
  | nil => intro e he; simp [runSequentialRules] at he
  | cons r rest ih =>
    intro e he
    simp only [runSequentialRules] at he
    rcases hres : resolveInputs (extract_subrules r) bb with _ | urls <;> rw [hres] at he
    · simp at he
    · rcases hstart : startO r with _ | j <;> rw [hstart] at he
      · simp at he
        exact ⟨r.name, urls, he⟩
      · dsimp only at he
        rcases hw : waitO j with e2 | u <;> rw [hw] at he
        · simp at he
          exact ⟨r.name, urls, he⟩
        · simp at he
          rcases he with he | he
          · exact ⟨r.name, urls, he⟩
          · exact ih e he

theorem runConcurrent_log_mem {ruleList : List Rule} {startO : Rule → Option JobName}
    {backend : List JobName → List PollEvent} {bb : Blackboard} {e : Effect}
    (h : e ∈ (runConcurrentRules ruleList startO backend bb).1) :
    (∃ n urls, e = Effect.start n urls) ∨ ∃ j, e = Effect.kill j := by
  have hsp' : ∀ e ∈ (startPhase ruleList startO bb).1, ∃ n urls, e = Effect.start n urls :=
    startPhase_log_starts
  unfold runConcurrentRules at h
  rcases hsp : startPhase ruleList startO bb with ⟨log, st⟩
  rw [hsp] at h hsp'
  cases st with
  | error e2 => exact .inl (hsp' e h)
  | ok jobs =>
    dsimp only at h
    rcases hpl : pollLoop (backend jobs) jobs [] with _ | ⟨jr, remaining, stop⟩ <;>
      rw [hpl] at h
    · exact .inl (hsp' e h)
    · cases stop with
      | false => exact .inl (hsp' e h)
      | true =>
        cases remaining with
        | nil => exact .inl (hsp' e h)
        | cons j rest =>
          rcases List.mem_append.mp h with h' | h'
          · exact .inl (hsp' e h')
          · simp at h'
            exact .inr ⟨j, h'⟩

theorem execLoop_log_mem {startO : Rule → Option JobName}
    {backends : Nat → List JobName → List PollEvent} :
    ∀ {fuel : Nat} {subRules : List Rule} {bb : Blackboard} {i : Nat} {e : Effect},
      e ∈ (execLoop startO backends fuel subRules bb i).1 →
      (∃ n urls, e = Effect.start n urls) ∨ ∃ j, e = Effect.kill j := by
  intro fuel
  induction fuel with
  | zero =>
    intro subRules bb i e h
    cases subRules with
    | nil => simp [execLoop] at h
    | cons r rs => simp [execLoop] at h
  | succ fuel ih =>
    intro subRules bb i e h
    cases subRules with
    | nil => simp [execLoop] at h
    | cons r rs =>
      simp only [execLoop] at h
      rcases hrc : runConcurrentRules (getRunableRules (r :: rs) bb) startO (backends i) bb
        with ⟨clog, cres⟩
      rw [hrc] at h
      have hclog : ∀ e2 ∈ clog,
          (∃ n urls, e2 = Effect.start n urls) ∨ ∃ j, e2 = Effect.kill j := by
        intro e2 he2
        have hm : e2 ∈ (runConcurrentRules (getRunableRules (r :: rs) bb) startO
            (backends i) bb).1 := by
          rw [hrc]; exact he2
        exact runConcurrent_log_mem hm
      rcases cres with _ | cres
      · exact hclog e h
      · rcases cres with e2 | ⟨jobs, ret⟩
        · exact hclog e h
        · dsimp only at h
          rcases hrec : execLoop startO backends fuel
              ((r :: rs).filter (notIn (getRunableRules (r :: rs) bb)))
              (foldResults bb ret) (i + 1) with ⟨l2, res2⟩
          rw [hrec] at h
          have hl2 : ∀ e2 ∈ l2,
              (∃ n urls, e2 = Effect.start n urls) ∨ ∃ j, e2 = Effect.kill j := by
            intro e2 he2
            refine @ih ((r :: rs).filter (notIn (getRunableRules (r :: rs) bb)))
              (foldResults bb ret) (i + 1) e2 ?_
            rw [hrec]; exact he2
          have hsplit : e ∈ clog ∨ e ∈ l2 := by
            rcases res2 with _ | res2
            · exact List.mem_append.mp h
            · rcases res2 with e3 | ⟨bbF, jobsF, hist⟩ <;> exact List.mem_append.mp h
          rcases hsplit with h' | h'
          · exact hclog e h'
          · exact hl2 e h'

/-- `C8` (amended): accumulated sub-rule job handles are purged only when
the terminal rule has run, and the terminal run succeeded: on success
every accumulated handle is purged, but when a batch or the terminal rule
fails, no purge at all is performed — the accumulated handles are leaked,
contrary to the original claim's "still released where feasible". -/
theorem purge_only_on_success (fuel : Nat) (root : Rule) (startO : Rule → Option JobName)
    (backends : Nat → List JobName → List PollEvent) (waitO : JobName → Except ExecError Unit) :
    (∀ log hist infJobs,
      executeRule fuel root startO backends waitO = (log, some (.ok (hist, infJobs))) →
      ∀ j ∈ infJobs, Effect.purge j ∈ log) ∧
    (∀ log e,
      executeRule fuel root startO backends waitO = (log, some (.error e)) →
      ∀ j, Effect.purge j ∉ log) := by
  unfold executeRule
  dsimp only
  rcases hel : execLoop startO backends fuel
      ((allRulesOf root).take ((allRulesOf root).length - 1))
      ((allRulesOf root).foldl (fun acc r => bbSet acc r.name []) []) 0 with ⟨llog, lres⟩
  rw [hel]
  have hlmem : ∀ e ∈ llog, (∃ n urls, e = Effect.start n urls) ∨ ∃ j, e = Effect.kill j := by
    intro e he
    have hm : e ∈ (execLoop startO backends fuel
        ((allRulesOf root).take ((allRulesOf root).length - 1))
        ((allRulesOf root).foldl (fun acc r => bbSet acc r.name []) []) 0).1 := by
      rw [hel]; exact he
    exact execLoop_log_mem hm
  rcases lres with _ | lres
  · constructor
    · intro log hist infJobs h
      simp at h
    · intro log e h
      simp at h
  · rcases lres with e0 | ⟨bbF, infJ, hist0⟩
    · constructor
      · intro log hist infJobs h
        simp at h
      · intro log e h
        simp at h
        obtain ⟨h1, h2⟩ := h
        subst h1
        intro j hj
        rcases hlmem _ hj with ⟨n, urls, h'⟩ | ⟨j2, h'⟩ <;> simp at h'
    · dsimp only
      rcases hsq : runSequentialRules ((allRulesOf root).drop ((allRulesOf root).length - 1))
          startO waitO bbF with ⟨slog, sres⟩
      have hsmem : ∀ e ∈ slog, ∃ n urls, e = Effect.start n urls := by
        intro e he
        have hm : e ∈ (runSequentialRules
            ((allRulesOf root).drop ((allRulesOf root).length - 1)) startO waitO bbF).1 := by
          rw [hsq]; exact he
        exact runSequential_log_starts e hm
      rcases sres with e1 | u
      · constructor
        · intro log hist infJobs h
          simp at h
        · intro log e h
          simp at h
          obtain ⟨h1, h2⟩ := h
          subst h1
          intro j hj
          rcases List.mem_append.mp hj with h' | h'
          · rcases hlmem _ h' with ⟨n, urls, h''⟩ | ⟨j2, h''⟩ <;> simp at h''
          · rcases hsmem _ h' with ⟨n, urls, h''⟩
            simp at h''
      · constructor
        · intro log hist infJobs h
          simp at h
          obtain ⟨h1, h2, h3⟩ := h
          subst h1
          subst h3
          intro j hj
          refine List.mem_append.mpr (.inr (List.mem_append.mpr (.inr ?_)))
          exact List.mem_map.mpr ⟨j, hj, rfl⟩
        · intro log e h
          simp at h

/-- Shared concrete graph: root `p` with a single sub-rule `a`. -/
theorem allRulesOf_pa :
    allRulesOf (Rule.mk "p" [Rule.mk "a" []]) =
      [Rule.mk "a" [], Rule.mk "p" [Rule.mk "a" []]] := by
  simp [allRulesOf, flatten_rules, flattenRulesList, deduplicate_rules, dedupAux, Rule.name]

/-- `C8` counterexample: root `p` with one sub-rule `a`; the batch for `a`
succeeds, so the handle `a@1` is accumulated; then the terminal rule's
wait fails. `execute_rule` propagates the failure and its effect log
contains no purge: the accumulated handle from the completed batch is
leaked, not released. -/
theorem purge_skipped_counterexample :
    executeRule 1 (Rule.mk "p" [Rule.mk "a" []])
        (fun r => some (String.append r.name "@1"))
        (fun _ js => [PollEvent.results (js.map (fun j => (j, ("ready", ["u"])))) []])
        (fun _ => Except.error (ExecError.waitFailed "w")) =
      ([Effect.start "a" [], Effect.start "p" ["u"]],
        some (.error (.waitFailed "w"))) := by
  simp only [executeRule, allRulesOf_pa]
  decide

/-- Witness for `C8` (amended) on the same graph with a successful
terminal run: the accumulated handle `a@1` is purged. -/
theorem purge_only_on_success_witness :
    ∀ j ∈ ["a@1"],
      Effect.purge j ∈ [Effect.start "a" [], Effect.start "p" ["u"], Effect.purge "a@1"] :=
  (purge_only_on_success 1 (Rule.mk "p" [Rule.mk "a" []])
      (fun r => some (String.append r.name "@1"))
      (fun _ js => [PollEvent.results (js.map (fun j => (j, ("ready", ["u"])))) []])
      (fun _ => Except.ok ())).1
    [Effect.start "a" [], Effect.start "p" ["u"], Effect.purge "a@1"]
    [[Rule.mk "a" []]] ["a@1"]
    (by simp only [executeRule, allRulesOf_pa]; decide)

theorem length_filter_lt {l : List Rule} {p : Rule → Bool} {x : Rule}
    (hx : x ∈ l) (hpx : p x = false) : (l.filter p).length < l.length := by
  induction l with
  | nil => simp at hx
  | cons a as ih =>
    rcases List.mem_cons.mp hx with rfl | hx
    · rw [List.filter_cons, hpx, if_neg Bool.false_ne_true]
      exact Nat.lt_succ_of_le (List.length_filter_le p as)
    · rw [List.filter_cons]
      by_cases hp : p a = true
      · simp only [if_pos hp, List.length_cons]
        exact Nat.succ_lt_succ (ih hx)
      · simp only [if_neg hp]
        exact Nat.lt_succ_of_lt (ih hx)

theorem runConcurrentRules_nil (startO : Rule → Option JobName)
    (backend : List JobName → List PollEvent) (bb : Blackboard) :
    runConcurrentRules [] startO backend bb = ([], some (.ok ([], []))) := by
  simp [runConcurrentRules, startPhase, pollLoop]

theorem mem_loopStates_self (startO : Rule → Option JobName)
    (backends : Nat → List JobName → List PollEvent) (fuel : Nat)
    (subRules : List Rule) (bb : Blackboard) (i : Nat) :
    (subRules, bb) ∈ loopStates startO backends fuel subRules bb i := by
  cases fuel with
  | zero => cases subRules <;> simp [loopStates]
  | succ fuel =>
    cases subRules with
    | nil => simp [loopStates]
    | cons r rs =>
      simp only [loopStates]
      rcases hrc : runConcurrentRules (getRunableRules (r :: rs) bb) startO (backends i) bb
        with ⟨clog, cres⟩
      rcases cres with _ | cres
      · simp
      · rcases cres with e | ⟨jobs, ret⟩
        · simp
        · simp

theorem loopStates_ok_cons {startO : Rule → Option JobName}
    {backends : Nat → List JobName → List PollEvent} {fuel : Nat} {r : Rule}
    {rs : List Rule} {bb : Blackboard} {i : Nat} {clog : List Effect}
    {jobs : List JobName} {ret : Blackboard}
    (hrc : runConcurrentRules (getRunableRules (r :: rs) bb) startO (backends i) bb =
      (clog, some (.ok (jobs, ret)))) :
    loopStates startO backends (fuel + 1) (r :: rs) bb i =
      (r :: rs, bb) ::
        loopStates startO backends fuel
          ((r :: rs).filter (notIn (getRunableRules (r :: rs) bb)))
          (foldResults bb ret) (i + 1) := by
  simp only [loopStates]
  rw [hrc]

theorem execLoop_terminates (startO : Rule → Option JobName)
    (backends : Nat → List JobName → List PollEvent) :
    ∀ (fuel : Nat) (subRules : List Rule) (bb : Blackboard) (i : Nat),
      subRules.length ≤ fuel →
      (∀ st ∈ loopStates startO backends fuel subRules bb i, st.1 ≠ [] →
        getRunableRules st.1 st.2 ≠ []) →
      (∀ j : Nat, ∀ subR bbx, (subR, bbx) ∈ loopStates startO backends fuel subRules bb i →
        subR ≠ [] →
        (runConcurrentRules (getRunableRules subR bbx) startO (backends j) bbx).2 ≠ none) →
      (execLoop startO backends fuel subRules bb i).2 ≠ none := by
  intro fuel
  induction fuel with
  | zero =>
    intro subRules bb i hlen hready hpoll
    have : subRules = [] := List.length_eq_zero.mp (Nat.le_zero.mp hlen)
    subst this
    simp [execLoop]
  | succ fuel ih =>
    intro subRules bb i hlen hready hpoll
    cases subRules with
    | nil => simp [execLoop]
    | cons r rs =>
      have hhead := mem_loopStates_self startO backends (fuel + 1) (r :: rs) bb i
      have hrun : getRunableRules (r :: rs) bb ≠ [] :=
        hready _ hhead (by simp)
      have hresp := hpoll i (r :: rs) bb hhead (by simp)
      simp only [execLoop]
      rcases hrc : runConcurrentRules (getRunableRules (r :: rs) bb) startO (backends i) bb
        with ⟨clog, cres⟩
      rcases cres with _ | cres
      · rw [hrc] at hresp
        simp at hresp
      · rcases cres with e | ⟨jobs, ret⟩
        · simp
        · have hstates := @loopStates_ok_cons _ _ fuel _ _ _ _ _ _ _ hrc
          have hlen2 : ((r :: rs).filter
              (notIn (getRunableRules (r :: rs) bb))).length ≤ fuel := by
            obtain ⟨x, hx⟩ := List.exists_mem_of_ne_nil _ hrun
            have hxmem : x ∈ r :: rs :=
              ((mem_getRunableRules).mp hx).1
            have : ((r :: rs).filter
                (notIn (getRunableRules (r :: rs) bb))).length <
                (r :: rs).length :=
              length_filter_lt hxmem (by simp [notIn, hx])
            omega
          have hterm := ih ((r :: rs).filter
              (notIn (getRunableRules (r :: rs) bb)))
              (foldResults bb ret) (i + 1) hlen2
            (by
              intro st hst hne
              refine hready st ?_ hne
              rw [hstates]
              exact List.mem_cons_of_mem _ hst)
            (by
              intro j subR bbx hst hne
              refine hpoll j subR bbx ?_ hne
              rw [hstates]
              exact List.mem_cons_of_mem _ hst)
          rcases hrec : execLoop startO backends fuel
              ((r :: rs).filter (notIn (getRunableRules (r :: rs) bb)))
              (foldResults bb ret) (i + 1) with ⟨l2, res2⟩
          rw [hrec] at hterm
          dsimp only
          rw [hrec]
          rcases res2 with _ | res2
          · simp at hterm
          · rcases res2 with e | ⟨bbF, jobsF, hist⟩ <;> simp

theorem execLoop_stuck (startO : Rule → Option JobName)
    (backends : Nat → List JobName → List PollEvent) :
    ∀ (fuel : Nat) (subRules : List Rule) (bb : Blackboard) (i : Nat),
      subRules ≠ [] → getRunableRules subRules bb = [] →
      (execLoop startO backends fuel subRules bb i).2 = none := by
  intro fuel
  induction fuel with
  | zero =>
    intro subRules bb i hne hstuck
    cases subRules with
    | nil => exact absurd rfl hne
    | cons r rs => simp [execLoop]
  | succ fuel ih =>
    intro subRules bb i hne hstuck
    cases subRules with
    | nil => exact absurd rfl hne
    | cons r rs =>
      simp only [execLoop]
      rw [hstuck, runConcurrentRules_nil]
      have hfix : (r :: rs).filter (notIn []) = r :: rs := by
        refine List.filter_eq_self.mpr ?_
        intro a _
        simp [notIn]
      have hbb : foldResults bb [] = bb := rfl
      rw [hfix]
      dsimp only
      rw [hbb]
      have := ih (r :: rs) bb (i + 1) hne hstuck
      rcases hrec : execLoop startO backends fuel (r :: rs) bb (i + 1) with ⟨l2, res2⟩
      rw [hrec] at this
      rcases res2 with _ | res2
      · rfl
      · simp at this

/-- `C7`: the orchestrator's batch loop (1) terminates within
`subRules.length` iterations whenever every loop state with rules left
has a non-empty ready subset (so that the sub-rule set strictly shrinks
each iteration) and every batch's poll stream answers; and (2)
conversely, if the ready subset of a state with rules left is empty —
the iteration removes no rule — the loop never terminates, with any
amount of fuel. -/
theorem batch_loop_termination (startO : Rule → Option JobName)
    (backends : Nat → List JobName → List PollEvent) (fuel : Nat)
    (subRules : List Rule) (bb : Blackboard) (i : Nat) :
    (subRules.length ≤ fuel →
      (∀ st ∈ loopStates startO backends fuel subRules bb i, st.1 ≠ [] →
        getRunableRules st.1 st.2 ≠ []) →
      (∀ j : Nat, ∀ subR bbx, (subR, bbx) ∈ loopStates startO backends fuel subRules bb i →
        subR ≠ [] →
        (runConcurrentRules (getRunableRules subR bbx) startO (backends j) bbx).2 ≠ none) →
      (execLoop startO backends fuel subRules bb i).2 ≠ none) ∧
    (subRules ≠ [] → getRunableRules subRules bb = [] →
      (execLoop startO backends fuel subRules bb i).2 = none) :=
  ⟨fun hlen hready hpoll => execLoop_terminates startO backends fuel subRules bb i
      hlen hready hpoll,
    fun hne hstuck => execLoop_stuck startO backends fuel subRules bb i hne hstuck⟩

/-- Witness for `C7`: (1) with one dependency-free sub-rule `a` and a
backend that answers each poll, fuel `1` completes the loop; (2) with a
sub-rule `b` whose dependency `c` never becomes ready, the ready subset
is empty and the loop does not terminate for any fuel (here `3`). -/
theorem batch_loop_termination_witness :
    (execLoop (fun _ => some "a@1")
        (fun _ _ => [PollEvent.results [("a@1", ("ready", ["u"]))] []])
        1 [Rule.mk "a" []] [] 0).2 ≠ none ∧
    (execLoop (fun _ => some "a@1")
        (fun _ _ => [PollEvent.results [("a@1", ("ready", ["u"]))] []])
        3 [Rule.mk "b" [Rule.mk "c" []]] [] 0).2 = none := by
  constructor
  · refine (batch_loop_termination (fun _ => some "a@1")
        (fun _ _ => [PollEvent.results [("a@1", ("ready", ["u"]))] []])
        1 [Rule.mk "a" []] [] 0).1 (by decide) (by decide) ?_
    intro j subR bbx hst hne
    have hls : loopStates (fun _ => some "a@1")
        (fun _ _ => [PollEvent.results [("a@1", ("ready", ["u"]))] []])
        1 [Rule.mk "a" []] [] 0 =
        [([Rule.mk "a" []], []), ([], [("a", ["u"])])] := by decide
    rw [hls] at hst
    simp at hst
    rcases hst with ⟨h1, h2⟩ | ⟨h1, h2⟩
    · subst h1
      subst h2
      decide
    · subst h1
      exact absurd rfl hne
  · exact (batch_loop_termination (fun _ => some "a@1")
        (fun _ _ => [PollEvent.results [("a@1", ("ready", ["u"]))] []])
        3 [Rule.mk "b" [Rule.mk "c" []]] [] 0).2 (by decide) (by decide)

theorem bbGet_bbSet (bb : Blackboard) (k k' : String) (v : List Url) :
    bbGet (bbSet bb k v) k' = if k' = k then some v else bbGet bb k' := by
  induction bb with
  | nil =>
    simp only [bbSet, bbGet]
    by_cases h : k = k'
    · simp [h]
    · rw [if_neg h, if_neg (fun hh : k' = k => h hh.symm)]
  | cons p ps ih =>
    by_cases hp : p.1 = k
    · by_cases h : k' = k
      · simp [bbSet, bbGet, hp, h]
      · simp only [bbSet, if_pos hp, bbGet, if_neg (fun hh : k = k' => h hh.symm), if_neg h]
        rw [if_neg (fun hh : p.1 = k' => h (hp ▸ hh).symm)]
    · by_cases hp' : p.1 = k'
      · have h : ¬ k' = k := fun hh => hp (hh ▸ hp')
        simp [bbSet, bbGet, hp, hp', h]
      · simp [bbSet, bbGet, hp, hp', ih]

theorem bbGet_isSome_bbSet {bb : Blackboard} {k' : String} (k : String) (v : List Url)
    (h : (bbGet bb k').isSome) : (bbGet (bbSet bb k v) k').isSome := by
  rw [bbGet_bbSet]
  by_cases hk : k' = k <;> simp [hk, h]

theorem bbGet_foldResults_notMem : ∀ (ret bb : Blackboard) (k : String),
    k ∉ ret.map Prod.fst → bbGet (foldResults bb ret) k = bbGet bb k := by
  intro ret
  induction ret with
  | nil => intro bb k _; rfl
  | cons p ps ih =>
    intro bb k h
    simp only [List.map_cons, List.mem_cons, not_or] at h
    have h2 : foldResults bb (p :: ps) = foldResults (bbSet bb p.1 p.2) ps := rfl
    rw [h2, ih _ k h.2, bbGet_bbSet]
    simp [h.1]

theorem bbGet_foldResults_mem : ∀ (ret bb : Blackboard) (k : String) (v : List Url),
    (ret.map Prod.fst).Nodup → (k, v) ∈ ret → bbGet (foldResults bb ret) k = some v := by
  intro ret
  induction ret with
  | nil => intro bb k v _ h; simp at h
  | cons p ps ih =>
    intro bb k v hnd hm
    simp only [List.map_cons, List.nodup_cons] at hnd
    have h2 : foldResults bb (p :: ps) = foldResults (bbSet bb p.1 p.2) ps := rfl
    rcases List.mem_cons.mp hm with rfl | hm
    · rw [h2, bbGet_foldResults_notMem ps _ k (by simpa using hnd.1), bbGet_bbSet]
      simp
    · rw [h2]
      exact ih _ k v hnd.2 hm

theorem bbGet_isSome_foldResults : ∀ (ret bb : Blackboard) (k : String),
    (bbGet bb k).isSome → (bbGet (foldResults bb ret) k).isSome := by
  intro ret
  induction ret with
  | nil => intro bb k h; exact h
  | cons p ps ih =>
    intro bb k h
    exact ih _ k (bbGet_isSome_bbSet p.1 p.2 h)

theorem truthy_some_of_ne {l : List Url} (h : l ≠ []) : truthy (some l) = true := by
  simp [truthy, List.isEmpty_iff, h]

theorem exists_min_sizeOf : ∀ (l : List Rule), l ≠ [] →
    ∃ x ∈ l, ∀ y ∈ l, sizeOf x ≤ sizeOf y := by
  intro l
  induction l with
  | nil => intro h; exact absurd rfl h
  | cons a as ih =>
    intro _
    cases as with
    | nil =>
      refine ⟨a, by simp, ?_⟩
      intro y hy
      simp at hy
      subst hy
      exact le_refl _
    | cons b bs =>
      obtain ⟨x, hx, hmin⟩ := ih (by simp)
      by_cases hax : sizeOf a ≤ sizeOf x
      · refine ⟨a, by simp, ?_⟩
        intro y hy
        rcases List.mem_cons.mp hy with rfl | hy
        · exact le_refl _
        · exact le_trans hax (hmin y hy)
      · refine ⟨x, List.mem_cons_of_mem _ hx, ?_⟩
        intro y hy
        rcases List.mem_cons.mp hy with rfl | hy
        · omega
        · exact hmin y hy

theorem sizeOf_mem_subs_lt {s r : Rule} (h : s ∈ r.subs) : sizeOf s < sizeOf r := by
  cases r with
  | mk n subs =>
    have h1 : sizeOf s < sizeOf subs := List.sizeOf_lt_of_mem h
    simp only [Rule.mk.sizeOf_spec]
    omega

theorem mem_flattenRulesList {x : Rule} : ∀ {l : List Rule},
    x ∈ flattenRulesList l ↔ ∃ t ∈ l, x ∈ flatten_rules t := by
  intro l
  induction l with
  | nil => simp [flattenRulesList]
  | cons t ts ih =>
    rw [flattenRulesList]
    simp [List.mem_append, ih]

theorem self_mem_flatten (r : Rule) : r ∈ flatten_rules r := by
  cases r with
  | mk n subs =>
    rw [flatten_rules]
    simp

theorem sizeOf_le_of_mem_flatten : ∀ (r : Rule), ∀ x ∈ flatten_rules r, sizeOf x ≤ sizeOf r := by
  have H : ∀ (m : Nat) (r : Rule), sizeOf r ≤ m → ∀ x ∈ flatten_rules r, sizeOf x ≤ sizeOf r := by
    intro m
    induction m with
    | zero =>
      intro r hr
      cases r with
      | mk n subs =>
        simp only [Rule.mk.sizeOf_spec] at hr
        omega
    | succ m ih =>
      intro r hr x hx
      cases r with
      | mk n subs =>
        rw [flatten_rules] at hx
        rcases List.mem_append.mp hx with hx | hx
        · obtain ⟨t, ht, hxt⟩ := mem_flattenRulesList.mp hx
          have hlt : sizeOf t < sizeOf (Rule.mk n subs) :=
            sizeOf_mem_subs_lt (show t ∈ (Rule.mk n subs).subs from ht)
          have h1 : sizeOf x ≤ sizeOf t := ih t (by omega) x hxt
          exact le_trans h1 (le_of_lt hlt)
        · simp at hx
          subst hx
          exact le_refl _
  intro r
  exact H (sizeOf r) r (le_refl _)

theorem subs_mem_flatten : ∀ (r : Rule), ∀ x ∈ flatten_rules r, ∀ s ∈ x.subs,
    s ∈ flatten_rules r := by
  have H : ∀ (m : Nat) (r : Rule), sizeOf r ≤ m → ∀ x ∈ flatten_rules r, ∀ s ∈ x.subs,
      s ∈ flatten_rules r := by
    intro m
    induction m with
    | zero =>
      intro r hr
      cases r with
      | mk n subs =>
        simp only [Rule.mk.sizeOf_spec] at hr
        omega
    | succ m ih =>
      intro r hr x hx s hs
      cases r with
      | mk n subs =>
        rw [flatten_rules] at hx ⊢
        rcases List.mem_append.mp hx with hx | hx
        · obtain ⟨t, ht, hxt⟩ := mem_flattenRulesList.mp hx
          have hlt : sizeOf t < sizeOf (Rule.mk n subs) :=
            sizeOf_mem_subs_lt (show t ∈ (Rule.mk n subs).subs from ht)
          have hrec : s ∈ flatten_rules t := ih t (by omega) x hxt s hs
          exact List.mem_append_left _ (mem_flattenRulesList.mpr ⟨t, ht, hrec⟩)
        · simp at hx
          subst hx
          exact List.mem_append_left _ (mem_flattenRulesList.mpr ⟨s, hs, self_mem_flatten s⟩)
  intro r
  exact H (sizeOf r) r (le_refl _)

theorem dedupAux_sublist : ∀ (l : List Rule) (seen : List String),
    (dedupAux l seen).Sublist l := by
  intro l
  induction l with
  | nil => intro seen; simp [dedupAux]
  | cons r rest ih =>
    intro seen
    simp only [dedupAux]
    by_cases h : r.name ∈ seen
    · rw [if_pos h]
      exact (ih seen).cons r
    · rw [if_neg h]
      exact (ih _).cons₂ r

theorem dedupAux_names : ∀ (l : List Rule) (seen : List String),
    ((dedupAux l seen).map Rule.name).Nodup ∧
      ∀ n ∈ (dedupAux l seen).map Rule.name, n ∉ seen := by
  intro l
  induction l with
  | nil => intro seen; simp [dedupAux]
  | cons r rest ih =>
    intro seen
    simp only [dedupAux]
    by_cases h : r.name ∈ seen
    · rw [if_pos h]
      exact ih seen
    · rw [if_neg h]
      obtain ⟨hnd, hns⟩ := ih (r.name :: seen)
      refine ⟨?_, ?_⟩
      · simp only [List.map_cons, List.nodup_cons]
        exact ⟨fun hmem => (hns _ hmem) (by simp), hnd⟩
      · intro n hn
        simp only [List.map_cons, List.mem_cons] at hn
        rcases hn with rfl | hn
        · exact h
        · have := hns n hn
          simp only [List.mem_cons, not_or] at this
          exact this.2

theorem dedupAux_names_mem : ∀ (l : List Rule) (seen : List String) (n : String),
    n ∈ l.map Rule.name → n ∉ seen → n ∈ (dedupAux l seen).map Rule.name := by
  intro l
  induction l with
  | nil => intro seen n h _; simp at h
  | cons r rest ih =>
    intro seen n hmem hns
    simp only [List.map_cons, List.mem_cons] at hmem
    simp only [dedupAux]
    by_cases h : r.name ∈ seen
    · rw [if_pos h]
      rcases hmem with rfl | hmem
      · exact absurd h hns
      · exact ih seen n hmem hns
    · rw [if_neg h]
      rcases hmem with rfl | hmem
      · simp
      · by_cases hn : n = r.name
        · subst hn
          simp
        · have := ih (r.name :: seen) n hmem (by simp [hn, hns])
          simp [this]

theorem dedupAux_append_last : ∀ (l : List Rule) (seen : List String) (x : Rule),
    x.name ∉ l.map Rule.name → x.name ∉ seen →
    dedupAux (l ++ [x]) seen = dedupAux l seen ++ [x] := by
  intro l
  induction l with
  | nil =>
    intro seen x _ hx
    simp [dedupAux, hx]
  | cons r rest ih =>
    intro seen x hxl hxs
    simp only [List.map_cons, List.mem_cons, not_or] at hxl
    simp only [List.cons_append, dedupAux]
    by_cases h : r.name ∈ seen
    · rw [if_pos h, if_pos h]
      exact ih seen x hxl.2 hxs
    · rw [if_neg h, if_neg h]
      simp only [List.append_eq]
      rw [ih _ x hxl.2 (by simp only [List.mem_cons, not_or]; exact ⟨hxl.1, hxs⟩)]
      rfl

theorem flatten_eq_prefix_append (root : Rule) :
    flatten_rules root = flattenRulesList root.subs ++ [root] := by
  cases root with
  | mk n subs =>
    rw [flatten_rules]
    rfl

theorem root_not_mem_prefix (root : Rule) : root ∉ flattenRulesList root.subs := by
  intro hmem
  obtain ⟨t, ht, hroot⟩ := mem_flattenRulesList.mp hmem
  have h1 : sizeOf root ≤ sizeOf t := sizeOf_le_of_mem_flatten t root hroot
  have h2 : sizeOf t < sizeOf root := sizeOf_mem_subs_lt ht
  omega

theorem prefix_name_ne_root {root x : Rule}
    (Hinj : ∀ r1 ∈ flatten_rules root, ∀ r2 ∈ flatten_rules root, r1.name = r2.name → r1 = r2)
    (hx : x ∈ flattenRulesList root.subs) : x.name ≠ root.name := by
  intro heq
  have hxf : x ∈ flatten_rules root := by
    rw [flatten_eq_prefix_append]
    exact List.mem_append_left _ hx
  have hxr : x = root := Hinj x hxf root (self_mem_flatten root) heq
  subst hxr
  exact root_not_mem_prefix x hx

theorem allRulesOf_decomp {root : Rule}
    (Hinj : ∀ r1 ∈ flatten_rules root, ∀ r2 ∈ flatten_rules root, r1.name = r2.name → r1 = r2) :
    allRulesOf root = deduplicate_rules (flattenRulesList root.subs) ++ [root] := by
  unfold allRulesOf deduplicate_rules
  rw [flatten_eq_prefix_append]
  refine dedupAux_append_last _ [] root ?_ (by simp)
  intro hmem
  obtain ⟨x, hx, hxn⟩ := List.mem_map.mp hmem
  exact prefix_name_ne_root Hinj hx hxn

theorem subRulesOf_decomp {root : Rule}
    (Hinj : ∀ r1 ∈ flatten_rules root, ∀ r2 ∈ flatten_rules root, r1.name = r2.name → r1 = r2) :
    allRulesOf root = subRulesOf root ++ [root] ∧
    (allRulesOf root).drop ((allRulesOf root).length - 1) = [root] := by
  have hd := allRulesOf_decomp Hinj
  have htake : subRulesOf root = deduplicate_rules (flattenRulesList root.subs) := by
    unfold subRulesOf
    rw [hd, List.length_append]
    simp only [List.length_singleton, Nat.add_sub_cancel]
    exact List.take_left _ _
  constructor
  · rw [htake, hd]
  · rw [hd, List.length_append]
    simp only [List.length_singleton, Nat.add_sub_cancel]
    exact List.drop_left _ _

theorem allRulesOf_names_nodup (root : Rule) : ((allRulesOf root).map Rule.name).Nodup :=
  (dedupAux_names _ []).1

theorem allRulesOf_sublist (root : Rule) : (allRulesOf root).Sublist (flatten_rules root) :=
  dedupAux_sublist _ []

theorem subRulesOf_sublist (root : Rule) : (subRulesOf root).Sublist (allRulesOf root) :=
  List.take_sublist _ _

theorem mem_allRulesOf_of_mem_flatten {root s : Rule}
    (Hinj : ∀ r1 ∈ flatten_rules root, ∀ r2 ∈ flatten_rules root, r1.name = r2.name → r1 = r2)
    (hs : s ∈ flatten_rules root) : s ∈ allRulesOf root := by
  have hname : s.name ∈ (flatten_rules root).map Rule.name := List.mem_map.mpr ⟨s, hs, rfl⟩
  have hmem : s.name ∈ (allRulesOf root).map Rule.name :=
    dedupAux_names_mem _ [] s.name hname (by simp)
  obtain ⟨rep, hrep, hrn⟩ := List.mem_map.mp hmem
  have heq : rep = s := Hinj rep ((allRulesOf_sublist root).subset hrep) s hs hrn
  subst heq
  exact hrep

theorem resolveInputs_isSome {bb : Blackboard} : ∀ {subs : List Rule},
    (∀ s ∈ subs, (bbGet bb s.name).isSome) → (resolveInputs subs bb).isSome := by
  intro subs
  induction subs with
  | nil => intro _; simp [resolveInputs]
  | cons s rest ih =>
    intro h
    have hs : (bbGet bb s.name).isSome := h s (by simp)
    rcases hget : bbGet bb s.name with _ | us
    · rw [hget] at hs
      simp at hs
    · simp only [resolveInputs, hget]
      have := ih (fun t ht => h t (by simp [ht]))
      rcases hres : resolveInputs rest bb with _ | tail
      · rw [hres] at this
        simp at this
      · simp

theorem startPhase_happy {startO : Rule → Option JobName} {bb : Blackboard} :
    ∀ {rules : List Rule},
    (∀ r ∈ rules, ∃ j, startO r = some j ∧ getRuleName j = r.name) →
    (∀ r ∈ rules, (resolveInputs (extract_subrules r) bb).isSome) →
    ∃ jobs log, startPhase rules startO bb = (log, .ok jobs) ∧
      jobs.map getRuleName = rules.map Rule.name ∧
      log.filterMap startName = rules.map Rule.name := by
  intro rules
  induction rules with
  | nil => intro _ _; exact ⟨[], [], rfl, rfl, rfl⟩
  | cons r rest ih =>
    intro Hstart h
    have hr := h r (by simp)
    rcases hres : resolveInputs (extract_subrules r) bb with _ | urls
    · rw [hres] at hr
      simp at hr
    · obtain ⟨j, hj, hjn⟩ := Hstart r (by simp)
      obtain ⟨jobs, log, heq, hjn2, hlog⟩ :=
        ih (fun t ht => Hstart t (by simp [ht])) (fun t ht => h t (by simp [ht]))
      refine ⟨j :: jobs, .start r.name urls :: log, ?_, ?_, ?_⟩
      · simp only [startPhase, hres, hj, heq]
        rfl
      · simp [hjn, hjn2]
      · simp [startName, hlog]

theorem processInactive_ready (out : String → List Url) : ∀ (js : List JobName)
    (res : Blackboard) (stop : Bool),
    processInactive (js.map (fun j => (j, ("ready", out (getRuleName j))))) res stop =
      (foldResults res (js.map (fun j => (getRuleName j, out (getRuleName j)))), stop) := by
  intro js
  induction js with
  | nil => intro res stop; rfl
  | cons j js ih =>
    intro res stop
    simp only [List.map_cons, processInactive, List.foldl_cons]
    have : processInactive (js.map (fun j => (j, ("ready", out (getRuleName j)))))
        (bbSet res (getRuleName j) (out (getRuleName j))) stop =
        (foldResults (bbSet res (getRuleName j) (out (getRuleName j)))
          (js.map (fun j => (getRuleName j, out (getRuleName j)))), stop) := ih _ stop
    simp only [processInactive] at this
    simpa [foldResults] using this

theorem pollLoop_happy (out : String → List Url) (js : List JobName) :
    pollLoop [.results (js.map (fun j => (j, ("ready", out (getRuleName j))))) []] js [] =
      some (foldResults [] (js.map (fun j => (getRuleName j, out (getRuleName j)))), [], false) := by
  cases js with
  | nil => rfl
  | cons j js =>
    rw [pollLoop]
    simp only [processInactive_ready]
    rfl

theorem runConcurrentRules_happy {startO : Rule → Option JobName} (out : String → List Url)
    {bb : Blackboard} {rules : List Rule}
    (Hstart : ∀ r ∈ rules, ∃ j, startO r = some j ∧ getRuleName j = r.name) (i : Nat)
    (Hres : ∀ r ∈ rules, (resolveInputs (extract_subrules r) bb).isSome) :
    ∃ jobs log, runConcurrentRules rules startO (happyBackend out i) bb =
      (log, some (.ok (jobs, foldResults [] (rules.map (fun r => (r.name, out r.name)))))) ∧
      jobs.map getRuleName = rules.map Rule.name ∧
      log.filterMap startName = rules.map Rule.name := by
  obtain ⟨jobs, log, heq, hjn, hlog⟩ := startPhase_happy Hstart Hres
  refine ⟨jobs, log, ?_, hjn, hlog⟩
  have hmap : jobs.map (fun j => (getRuleName j, out (getRuleName j))) =
      rules.map (fun r => (r.name, out r.name)) := by
    have h1 : jobs.map (fun j => (getRuleName j, out (getRuleName j))) =
        (jobs.map getRuleName).map (fun n => (n, out n)) := by
      rw [List.map_map]
      rfl
    have h2 : rules.map (fun r => (r.name, out r.name)) =
        (rules.map Rule.name).map (fun n => (n, out n)) := by
      rw [List.map_map]
      rfl
    rw [h1, h2, hjn]
  unfold runConcurrentRules
  rw [heq]
  dsimp only
  rw [show (happyBackend out i) jobs =
      [PollEvent.results (jobs.map (fun j => (j, ("ready", out (getRuleName j))))) []] from rfl]
  rw [pollLoop_happy, hmap]
  rfl

theorem bbGet_append_none {l1 : Blackboard} {k : String} (h : bbGet l1 k = none)
    (l2 : Blackboard) : bbGet (l1 ++ l2) k = bbGet l2 k := by
  induction l1 with
  | nil => rfl
  | cons p ps ih =>
    simp only [bbGet] at h
    by_cases hp : p.1 = k
    · rw [if_pos hp] at h
      simp at h
    · rw [if_neg hp] at h
      simp only [List.cons_append, bbGet, if_neg hp]
      exact ih h

theorem bbSet_fresh (acc : Blackboard) (k : String) (v : List Url)
    (h : bbGet acc k = none) : bbSet acc k v = acc ++ [(k, v)] := by
  induction acc with
  | nil => rfl
  | cons p ps ih =>
    simp only [bbGet] at h
    by_cases hp : p.1 = k
    · rw [if_pos hp] at h
      simp at h
    · rw [if_neg hp] at h
      simp only [bbSet, if_neg hp, List.cons_append]
      rw [ih h]

theorem foldResults_fresh : ∀ (ret acc : Blackboard),
    (∀ p ∈ ret, bbGet acc p.1 = none) → (ret.map Prod.fst).Nodup →
    foldResults acc ret = acc ++ ret := by
  intro ret
  induction ret with
  | nil => intro acc _ _; simp [foldResults]
  | cons p ps ih =>
    intro acc hfresh hnd
    simp only [List.map_cons, List.nodup_cons] at hnd
    have h2 : foldResults acc (p :: ps) = foldResults (bbSet acc p.1 p.2) ps := rfl
    rw [h2, bbSet_fresh acc p.1 p.2 (hfresh p (by simp))]
    rw [ih (acc ++ [(p.1, p.2)]) ?_ hnd.2]
    · simp
    · intro q hq
      have hq1 : q.1 ≠ p.1 := by
        intro heq
        exact hnd.1 (heq ▸ List.mem_map.mpr ⟨q, hq, rfl⟩)
      rw [bbGet_append_none (hfresh q (by simp [hq]))]
      simp only [bbGet]
      rw [if_neg (fun heq : p.1 = q.1 => hq1 heq.symm)]

theorem foldResults_nil_eq (ret : Blackboard) (hnd : (ret.map Prod.fst).Nodup) :
    foldResults [] ret = ret := by
  rw [foldResults_fresh ret [] (fun p _ => rfl) hnd]
  simp

theorem filter_notIn_runable (subRules : List Rule) (bb : Blackboard) :
    subRules.filter (notIn (getRunableRules subRules bb)) =
      subRules.filter (fun rule =>
        !((extract_subrules rule).all (fun sub => truthy (bbGet bb sub.name)))) := by
  refine List.filter_congr ?_
  intro x hx
  simp only [notIn]
  by_cases hr : (extract_subrules x).all (fun sub => truthy (bbGet bb sub.name)) = true
  · have hmem : x ∈ getRunableRules subRules bb := List.mem_filter.mpr ⟨hx, hr⟩
    simp [hmem, hr]
  · have hmem : x ∉ getRunableRules subRules bb := fun hmem => hr (List.mem_filter.mp hmem).2
    simp [hmem, hr]

theorem runable_filter_perm (subRules : List Rule) (bb : Blackboard) :
    (getRunableRules subRules bb ++
      subRules.filter (notIn (getRunableRules subRules bb))).Perm subRules := by
  rw [filter_notIn_runable]
  exact List.filter_append_perm _ subRules

/-- The happy-path run of the `while sub_rules:` loop: if every job
starts, every job completes `ready` with a non-empty output list, rule
names identify rules, the sub-rule list is drawn from the graph's
deduplicated sub-rules, every already-removed rule has a non-empty store
entry and every graph rule has a store entry, then the loop succeeds and
its batches partition the remaining sub-rules. -/
theorem execLoop_happy {root : Rule} {out : String → List Url} {startO : Rule → Option JobName}
    (Hinj : ∀ r1 ∈ flatten_rules root, ∀ r2 ∈ flatten_rules root, r1.name = r2.name → r1 = r2)
    (Hstart : ∀ r ∈ flatten_rules root, ∃ j, startO r = some j ∧ getRuleName j = r.name)
    (Hout : ∀ n, out n ≠ []) :
    ∀ (fuel : Nat) (subRules : List Rule) (bb : Blackboard) (i : Nat),
      subRules.length ≤ fuel →
      subRules.Sublist (subRulesOf root) →
      (∀ r ∈ subRulesOf root, r ∉ subRules → truthy (bbGet bb r.name)) →
      (∀ s ∈ flatten_rules root, (bbGet bb s.name).isSome) →
      ∃ log hist jobs bbF,
        execLoop startO (happyBackend out) fuel subRules bb i =
          (log, some (.ok (bbF, jobs, hist))) ∧
        hist.flatten.Perm subRules ∧
        log.filterMap startName = hist.flatten.map Rule.name ∧
        (∀ s ∈ flatten_rules root, (bbGet bbF s.name).isSome) := by
  intro fuel
  induction fuel with
  | zero =>
    intro subRules bb i hlen _ _ hkeys
    have hnil : subRules = [] := List.length_eq_zero.mp (Nat.le_zero.mp hlen)
    subst hnil
    exact ⟨[], [], [], bb, rfl, by simp, rfl, hkeys⟩
  | succ fuel ih =>
    intro subRules bb i hlen hsub hdone hkeys
    cases subRules with
    | nil => exact ⟨[], [], [], bb, rfl, by simp, rfl, hkeys⟩
    | cons r0 rs =>
      have hmemflat : ∀ x ∈ r0 :: rs, x ∈ flatten_rules root := fun x hx =>
        (allRulesOf_sublist root).subset ((subRulesOf_sublist root).subset (hsub.subset hx))
      obtain ⟨x, hxmem, hxmin⟩ := exists_min_sizeOf (r0 :: rs) (by simp)
      have hxready : ∀ s ∈ extract_subrules x, truthy (bbGet bb s.name) := by
        intro s hs
        have hsflat : s ∈ flatten_rules root :=
          subs_mem_flatten root x (hmemflat x hxmem) s hs
        have hsall : s ∈ allRulesOf root := mem_allRulesOf_of_mem_flatten Hinj hsflat
        have hsne : s ≠ root := by
          intro heq
          have h1 : sizeOf s < sizeOf x := sizeOf_mem_subs_lt hs
          have h2 : sizeOf x ≤ sizeOf root := sizeOf_le_of_mem_flatten root x (hmemflat x hxmem)
          rw [heq] at h1
          omega
        have hssub : s ∈ subRulesOf root := by
          have hdecomp := (subRulesOf_decomp Hinj).1
          rcases List.mem_append.mp (hdecomp ▸ hsall) with h | h
          · exact h
          · simp at h
            exact absurd h hsne
        have hsnotcur : s ∉ r0 :: rs := by
          intro hcur
          have hle := hxmin s hcur
          have h1 : sizeOf s < sizeOf x := sizeOf_mem_subs_lt hs
          omega
        exact hdone s hssub hsnotcur
      have hxrun : x ∈ getRunableRules (r0 :: rs) bb := by
        unfold getRunableRules
        refine List.mem_filter.mpr ⟨hxmem, ?_⟩
        rw [List.all_eq_true]
        exact fun s hs => hxready s hs
      have hrunsub : (getRunableRules (r0 :: rs) bb).Sublist (r0 :: rs) :=
        List.filter_sublist _
      have hres : ∀ r ∈ getRunableRules (r0 :: rs) bb,
          (resolveInputs (extract_subrules r) bb).isSome := by
        intro r hr
        refine resolveInputs_isSome ?_
        intro s hs
        exact hkeys s (subs_mem_flatten root r (hmemflat r (hrunsub.subset hr)) s hs)
      obtain ⟨jobs, clog, hceq, hjn, hclog⟩ := runConcurrentRules_happy out
        (fun r hr => Hstart r (hmemflat r (hrunsub.subset hr))) i hres
      have hnamesnd : ((r0 :: rs).map Rule.name).Nodup := by
        have h1 : ((r0 :: rs).map Rule.name).Sublist ((subRulesOf root).map Rule.name) :=
          hsub.map _
        have h2 : ((subRulesOf root).map Rule.name).Sublist ((allRulesOf root).map Rule.name) :=
          (subRulesOf_sublist root).map _
        exact (allRulesOf_names_nodup root).sublist (h1.trans h2)
      have hrunnd : ((getRunableRules (r0 :: rs) bb).map Rule.name).Nodup :=
        hnamesnd.sublist (hrunsub.map _)
      have hretkeys : (((getRunableRules (r0 :: rs) bb).map
          (fun r => (r.name, out r.name))).map Prod.fst) =
          (getRunableRules (r0 :: rs) bb).map Rule.name := by
        rw [List.map_map]
        rfl
      have hretnd : (((getRunableRules (r0 :: rs) bb).map
          (fun r => (r.name, out r.name))).map Prod.fst).Nodup := by
        rw [hretkeys]
        exact hrunnd
      have hlen' : ((r0 :: rs).filter (notIn (getRunableRules (r0 :: rs) bb))).length ≤ fuel := by
        have hlt : ((r0 :: rs).filter (notIn (getRunableRules (r0 :: rs) bb))).length <
            (r0 :: rs).length :=
          length_filter_lt hxmem (by simp [notIn, hxrun])
        omega
      have hsub' : ((r0 :: rs).filter (notIn (getRunableRules (r0 :: rs) bb))).Sublist
          (subRulesOf root) :=
        (List.filter_sublist _).trans hsub
      have hkeys' : ∀ s ∈ flatten_rules root,
          (bbGet (foldResults bb ((getRunableRules (r0 :: rs) bb).map
            (fun r => (r.name, out r.name)))) s.name).isSome := by
        intro s hs
        exact bbGet_isSome_foldResults _ bb s.name (hkeys s hs)
      have hdone' : ∀ r ∈ subRulesOf root,
          r ∉ (r0 :: rs).filter (notIn (getRunableRules (r0 :: rs) bb)) →
          truthy (bbGet (foldResults bb ((getRunableRules (r0 :: rs) bb).map
            (fun r => (r.name, out r.name)))) r.name) := by
        intro r hr hnot
        by_cases hcur : r ∈ r0 :: rs
        · have hrun : r ∈ getRunableRules (r0 :: rs) bb := by
            by_contra hnr
            exact hnot (List.mem_filter.mpr ⟨hcur, by simp [notIn, hnr]⟩)
          have hmem : (r.name, out r.name) ∈ (getRunableRules (r0 :: rs) bb).map
              (fun r => (r.name, out r.name)) := List.mem_map.mpr ⟨r, hrun, rfl⟩
          rw [bbGet_foldResults_mem _ bb r.name (out r.name) hretnd hmem]
          exact truthy_some_of_ne (Hout r.name)
        · have hnotkey : r.name ∉ ((getRunableRules (r0 :: rs) bb).map
              (fun r => (r.name, out r.name))).map Prod.fst := by
            rw [hretkeys]
            intro hmem
            obtain ⟨q, hq, hqn⟩ := List.mem_map.mp hmem
            have hqflat : q ∈ flatten_rules root := hmemflat q (hrunsub.subset hq)
            have hrflat : r ∈ flatten_rules root :=
              (allRulesOf_sublist root).subset ((subRulesOf_sublist root).subset hr)
            have : q = r := Hinj q hqflat r hrflat hqn
            subst this
            exact hcur (hrunsub.subset hq)
          rw [bbGet_foldResults_notMem _ bb r.name hnotkey]
          exact hdone r hr hcur
      obtain ⟨log2, hist, jobs2, bbF, heq2, hperm, hlog2, hkeysF⟩ :=
        ih ((r0 :: rs).filter (notIn (getRunableRules (r0 :: rs) bb)))
          (foldResults bb ((getRunableRules (r0 :: rs) bb).map
            (fun r => (r.name, out r.name)))) (i + 1) hlen' hsub' hdone' hkeys'
      refine ⟨clog ++ log2, getRunableRules (r0 :: rs) bb :: hist, jobs ++ jobs2, bbF,
        ?_, ?_, ?_, hkeysF⟩
      · simp only [execLoop]
        rw [hceq]
        dsimp only
        rw [foldResults_nil_eq _ hretnd]
        rw [heq2]
      · simp only [List.flatten_cons]
        exact (hperm.append_left _).trans (runable_filter_perm (r0 :: rs) bb)
      · simp only [List.filterMap_append, List.flatten_cons, List.map_append, hclog, hlog2]

theorem bbGet_init_isSome : ∀ (l : List Rule) (acc : Blackboard) (k : String),
    k ∈ l.map Rule.name ∨ (bbGet acc k).isSome →
    (bbGet (l.foldl (fun acc r => bbSet acc r.name []) acc) k).isSome := by
  intro l
  induction l with
  | nil =>
    intro acc k h
    rcases h with h | h
    · simp at h
    · exact h
  | cons r rest ih =>
    intro acc k h
    simp only [List.foldl_cons]
    refine ih _ k ?_
    rcases h with h | h
    · simp only [List.map_cons, List.mem_cons] at h
      rcases h with rfl | h
      · right
        rw [bbGet_bbSet]
        simp
      · left
        exact h
    · right
      exact bbGet_isSome_bbSet _ _ h

theorem filterMap_startName_purge (js : List JobName) :
    (js.map Effect.purge).filterMap startName = [] := by
  induction js with
  | nil => rfl
  | cons j js ih => simp [startName, ih]

/-- `C4`: for every rule graph — a finite DAG by construction of `Rule` —
whose names identify rules uniquely, when every job starts with a handle
that resolves back to its rule name, every job completes `ready` with a
non-empty output list, the terminal wait succeeds, and the fuel covers
the sub-rule count, `execute_rule` runs every rule of the flattened,
deduplicated graph exactly once: the concurrent batches partition the
sub-rules — so a sub-rule shared by two parents is started once, not
once per parent — and the terminal rule is started exactly once, after
every batch start, sequentially last. -/
theorem executeRule_runs_each_rule_once (root : Rule) (out : String → List Url)
    (startO : Rule → Option JobName) (waitO : JobName → Except ExecError Unit) (fuel : Nat)
    (Hinj : ∀ r1 ∈ flatten_rules root, ∀ r2 ∈ flatten_rules root, r1.name = r2.name → r1 = r2)
    (Hstart : ∀ r ∈ flatten_rules root, ∃ j, startO r = some j ∧ getRuleName j = r.name)
    (Hout : ∀ n, out n ≠ [])
    (Hwait : ∀ j, waitO j = .ok ())
    (Hfuel : (subRulesOf root).length ≤ fuel) :
    ∃ log hist infJobs,
      executeRule fuel root startO (happyBackend out) waitO =
        (log, some (.ok (hist, infJobs))) ∧
      hist.flatten.Perm (subRulesOf root) ∧
      log.filterMap startName = hist.flatten.map Rule.name ++ [root.name] ∧
      (∀ n, (log.filterMap startName).count n =
        if n ∈ (allRulesOf root).map Rule.name then 1 else 0) := by
  have hkeys0 : ∀ s ∈ flatten_rules root,
      (bbGet ((allRulesOf root).foldl (fun acc r => bbSet acc r.name []) []) s.name).isSome := by
    intro s hs
    refine bbGet_init_isSome _ [] s.name (.inl ?_)
    exact List.mem_map.mpr ⟨s, mem_allRulesOf_of_mem_flatten Hinj hs, rfl⟩
  obtain ⟨llog, hist, infJobs, bbF, heq, hperm, hlog, hkeysF⟩ :=
    execLoop_happy Hinj Hstart Hout fuel (subRulesOf root)
      ((allRulesOf root).foldl (fun acc r => bbSet acc r.name []) []) 0
      Hfuel (List.Sublist.refl _) (fun r hr hnot => absurd hr hnot) hkeys0
  -- the terminal (sequential) run
  have hressome : (resolveInputs (extract_subrules root) bbF).isSome := by
    refine resolveInputs_isSome ?_
    intro s hs
    exact hkeysF s (subs_mem_flatten root root (self_mem_flatten root) s hs)
  rcases hres : resolveInputs (extract_subrules root) bbF with _ | urls
  · rw [hres] at hressome
    simp at hressome
  · obtain ⟨j, hj, hjn⟩ := Hstart root (self_mem_flatten root)
    have hseq : runSequentialRules [root] startO waitO bbF =
        ([.start root.name urls], .ok ()) := by
      simp only [runSequentialRules, hres, hj, Hwait j]
    refine ⟨llog ++ [.start root.name urls] ++ infJobs.map Effect.purge, hist, infJobs,
      ?_, hperm, ?_, ?_⟩
    · unfold executeRule
      dsimp only
      rw [show (allRulesOf root).take ((allRulesOf root).length - 1) = subRulesOf root from rfl]
      rw [heq]
      dsimp only
      rw [(subRulesOf_decomp Hinj).2, hseq]
    · simp only [List.filterMap_append, hlog, filterMap_startName_purge, List.append_nil]
      simp [startName]
    · intro n
      have hcount : (llog ++ [Effect.start root.name urls] ++
          infJobs.map Effect.purge).filterMap startName =
          hist.flatten.map Rule.name ++ [root.name] := by
        simp only [List.filterMap_append, hlog, filterMap_startName_purge, List.append_nil]
        simp [startName]
      rw [hcount]
      have hperm2 : (hist.flatten.map Rule.name ++ [root.name]).Perm
          ((allRulesOf root).map Rule.name) := by
        have h1 : (hist.flatten.map Rule.name).Perm ((subRulesOf root).map Rule.name) :=
          hperm.map _
        have h2 := h1.append_right [root.name]
        have h3 : (subRulesOf root).map Rule.name ++ [root.name] =
            (allRulesOf root).map Rule.name := by
          rw [(subRulesOf_decomp Hinj).1]
          simp [Rule.name]
        rw [h3] at h2
        exact h2
      rw [hperm2.count_eq]
      by_cases hmem : n ∈ (allRulesOf root).map Rule.name
      · rw [if_pos hmem]
        exact List.count_eq_one_of_mem (allRulesOf_names_nodup root) hmem
      · rw [if_neg hmem]
        exact List.count_eq_zero.mpr hmem

/-- Witness for `C4`: the diamond graph `c → {a, b} → d` (the sub-rule
`d` is shared by the two parents `a` and `b`): the run succeeds, the
batches partition `{d, a, b}` (each started once, `d` once despite two
parents), and `c` is started last. -/
theorem executeRule_runs_each_rule_once_witness :
    ∃ log hist infJobs,
      executeRule 3
          (Rule.mk "c" [Rule.mk "a" [Rule.mk "d" []], Rule.mk "b" [Rule.mk "d" []]])
          (fun r => some (String.append r.name "@1"))
          (happyBackend (fun _ => ["u"])) (fun _ => Except.ok ()) =
        (log, some (.ok (hist, infJobs))) ∧
      hist.flatten.Perm
        (subRulesOf (Rule.mk "c" [Rule.mk "a" [Rule.mk "d" []], Rule.mk "b" [Rule.mk "d" []]])) ∧
      log.filterMap startName = hist.flatten.map Rule.name ++
        [(Rule.mk "c" [Rule.mk "a" [Rule.mk "d" []], Rule.mk "b" [Rule.mk "d" []]]).name] ∧
      (∀ n, (log.filterMap startName).count n =
        if n ∈ (allRulesOf (Rule.mk "c" [Rule.mk "a" [Rule.mk "d" []],
            Rule.mk "b" [Rule.mk "d" []]])).map Rule.name then 1 else 0) := by
  have hflat : flatten_rules
      (Rule.mk "c" [Rule.mk "a" [Rule.mk "d" []], Rule.mk "b" [Rule.mk "d" []]]) =
      [Rule.mk "d" [], Rule.mk "a" [Rule.mk "d" []], Rule.mk "d" [],
        Rule.mk "b" [Rule.mk "d" []],
        Rule.mk "c" [Rule.mk "a" [Rule.mk "d" []], Rule.mk "b" [Rule.mk "d" []]]] := by
    simp [flatten_rules, flattenRulesList]
  have hall : allRulesOf
      (Rule.mk "c" [Rule.mk "a" [Rule.mk "d" []], Rule.mk "b" [Rule.mk "d" []]]) =
      [Rule.mk "d" [], Rule.mk "a" [Rule.mk "d" []], Rule.mk "b" [Rule.mk "d" []],
        Rule.mk "c" [Rule.mk "a" [Rule.mk "d" []], Rule.mk "b" [Rule.mk "d" []]]] := by
    simp only [allRulesOf]
    rw [hflat]
    decide
  refine executeRule_runs_each_rule_once _ _ _ _ 3 ?_ ?_ ?_ ?_ ?_
  · rw [hflat]
    decide
  · intro r hr
    refine ⟨String.append r.name "@1", rfl, ?_⟩
    rw [hflat] at hr
    fin_cases hr <;> decide
  · intro n
    simp
  · intro j
    rfl
  · simp only [subRulesOf]
    rw [hall]
    decide

theorem happyBackend_wf (out : String → List Url) : WellFormedBackend (happyBackend out) := by
  intro i js ev hev inactive active heq p hp
  simp only [happyBackend, List.mem_singleton] at hev
  rw [hev] at heq
  have : inactive = js.map (fun j => (j, ("ready", out (getRuleName j)))) := by
    cases heq
    rfl
  rw [this] at hp
  obtain ⟨j, hj, hpe⟩ := List.mem_map.mp hp
  rw [← hpe]
  exact hj

theorem mem_of_bbGet : ∀ {bb : Blackboard} {k : String} {v : List Url},
    bbGet bb k = some v → (k, v) ∈ bb := by
  intro bb
  induction bb with
  | nil => intro k v h; simp [bbGet] at h
  | cons p ps ih =>
    intro k v h
    simp only [bbGet] at h
    by_cases hp : p.1 = k
    · rw [if_pos hp] at h
      simp only [Option.some.injEq] at h
      subst hp
      subst h
      exact List.mem_cons_self p ps
    · rw [if_neg hp] at h
      exact List.mem_cons_of_mem _ (ih h)

theorem bbGet_of_mem : ∀ {bb : Blackboard} {k : String} {v : List Url},
    (bb.map Prod.fst).Nodup → (k, v) ∈ bb → bbGet bb k = some v := by
  intro bb
  induction bb with
  | nil => intro k v _ h; simp at h
  | cons p ps ih =>
    intro k v hnd hm
    simp only [List.map_cons, List.nodup_cons] at hnd
    rcases List.mem_cons.mp hm with rfl | hm
    · simp [bbGet]
    · have hk : k ∈ ps.map Prod.fst := List.mem_map.mpr ⟨(k, v), hm, rfl⟩
      have hne : p.1 ≠ k := fun heq => hnd.1 (heq ▸ hk)
      simp only [bbGet, if_neg hne]
      exact ih hnd.2 hm

theorem bbSet_keys_subset {k' : String} : ∀ (bb : Blackboard) (k : String) (v : List Url),
    k' ∈ (bbSet bb k v).map Prod.fst → k' = k ∨ k' ∈ bb.map Prod.fst := by
  intro bb
  induction bb with
  | nil =>
    intro k v h
    simp [bbSet] at h
    exact .inl h
  | cons p ps ih =>
    intro k v h
    by_cases hp : p.1 = k
    · simp only [bbSet, if_pos hp, List.map_cons, List.mem_cons] at h
      rcases h with h | h
      · exact .inl h
      · exact .inr (by simp [h])
    · simp only [bbSet, if_neg hp, List.map_cons, List.mem_cons] at h
      rcases h with h | h
      · exact .inr (by simp [h])
      · rcases ih k v h with h | h
        · exact .inl h
        · exact .inr (by simp [h])

theorem bbSet_keys_nodup : ∀ {bb : Blackboard} (k : String) (v : List Url),
    (bb.map Prod.fst).Nodup → ((bbSet bb k v).map Prod.fst).Nodup := by
  intro bb
  induction bb with
  | nil => intro k v _; simp [bbSet]
  | cons p ps ih =>
    intro k v hnd
    simp only [List.map_cons, List.nodup_cons] at hnd
    by_cases hp : p.1 = k
    · simp only [bbSet, if_pos hp, List.map_cons, List.nodup_cons]
      exact ⟨hp ▸ hnd.1, hnd.2⟩
    · simp only [bbSet, if_neg hp, List.map_cons, List.nodup_cons]
      refine ⟨?_, ih k v hnd.2⟩
      intro hmem
      rcases bbSet_keys_subset ps k v hmem with h | h
      · exact hp h
      · exact hnd.1 h

theorem processInactive_cons (e : JobName × Status × List Url)
    (rest : List (JobName × Status × List Url)) (res : Blackboard) (stop : Bool) :
    processInactive (e :: rest) res stop =
      if e.2.1 == "ready" then processInactive rest (bbSet res (getRuleName e.1) e.2.2) stop
      else if e.2.1 == "dead" then processInactive rest res true
      else processInactive rest res stop := by
  by_cases h1 : e.2.1 = "ready"
  · simp [processInactive, h1]
  · by_cases h2 : e.2.1 = "dead" <;> simp [processInactive, h1, h2]

theorem processInactive_provenance : ∀ (inactive : List (JobName × Status × List Url))
    (res : Blackboard) (stop : Bool) (k : String) (v : List Url),
    bbGet (processInactive inactive res stop).1 k = some v →
    bbGet res k = some v ∨
      ∃ jb, (jb, ("ready", v)) ∈ inactive ∧ getRuleName jb = k := by
  intro inactive
  induction inactive with
  | nil => intro res stop k v h; exact .inl h
  | cons e rest ih =>
    intro res stop k v h
    rw [processInactive_cons] at h
    by_cases h1 : e.2.1 == "ready"
    · rw [if_pos h1] at h
      rcases ih _ stop k v h with h' | ⟨jb, hjb, hk⟩
      · rw [bbGet_bbSet] at h'
        by_cases hk : k = getRuleName e.1
        · rw [if_pos hk] at h'
          simp only [Option.some.injEq] at h'
          refine .inr ⟨e.1, ?_, hk.symm⟩
          have he : (e.1, ("ready", v)) = e := by
            have hst : e.2.1 = "ready" := by simpa using h1
            rw [← hst, ← h']
          rw [he]
          exact List.mem_cons_self e rest
        · rw [if_neg hk] at h'
          exact .inl h'
      · exact .inr ⟨jb, List.mem_cons_of_mem _ hjb, hk⟩
    · rw [if_neg h1] at h
      by_cases h2 : e.2.1 == "dead"
      · rw [if_pos h2] at h
        rcases ih res true k v h with h' | ⟨jb, hjb, hk⟩
        · exact .inl h'
        · exact .inr ⟨jb, List.mem_cons_of_mem _ hjb, hk⟩
      · rw [if_neg h2] at h
        rcases ih res stop k v h with h' | ⟨jb, hjb, hk⟩
        · exact .inl h'
        · exact .inr ⟨jb, List.mem_cons_of_mem _ hjb, hk⟩

theorem processInactive_keys_nodup : ∀ (inactive : List (JobName × Status × List Url))
    (res : Blackboard) (stop : Bool),
    (res.map Prod.fst).Nodup → (((processInactive inactive res stop).1).map Prod.fst).Nodup := by
  intro inactive
  induction inactive with
  | nil => intro res stop h; exact h
  | cons e rest ih =>
    intro res stop h
    rw [processInactive_cons]
    by_cases h1 : e.2.1 == "ready"
    · rw [if_pos h1]
      exact ih _ stop (bbSet_keys_nodup _ _ h)
    · rw [if_neg h1]
      by_cases h2 : e.2.1 == "dead"
      · rw [if_pos h2]
        exact ih res true h
      · rw [if_neg h2]
        exact ih res stop h

theorem pollLoop_provenance : ∀ (events : List PollEvent) (jobs : List JobName)
    (res res' : Blackboard) (jobs2 : List JobName) (stop : Bool),
    pollLoop events jobs res = some (res', jobs2, stop) →
    ∀ k v, bbGet res' k = some v →
      bbGet res k = some v ∨
      ∃ inactive active, PollEvent.results inactive active ∈ events ∧
        ∃ jb, (jb, ("ready", v)) ∈ inactive ∧ getRuleName jb = k := by
  intro events
  induction events with
  | nil =>
    intro jobs res res' jobs2 stop h k v hv
    cases jobs with
    | nil =>
      simp [pollLoop] at h
      rw [← h.1] at hv
      exact .inl hv
    | cons j js => simp [pollLoop] at h
  | cons ev evs ih =>
    intro jobs res res' jobs2 stop h k v hv
    cases jobs with
    | nil =>
      simp [pollLoop] at h
      rw [← h.1] at hv
      exact .inl hv
    | cons j js =>
      cases ev with
      | commError =>
        rw [pollLoop] at h
        rcases ih _ _ _ _ _ h k v hv with h' | ⟨ia, ac, hmem, rest⟩
        · exact .inl h'
        · exact .inr ⟨ia, ac, List.mem_cons_of_mem _ hmem, rest⟩
      | results inactive active =>
        rw [pollLoop] at h
        by_cases hstop : (processInactive inactive res false).2 = true
        · rw [if_pos hstop] at h
          simp only [Option.some.injEq, Prod.mk.injEq] at h
          rcases processInactive_provenance inactive res false k v
              (by rw [h.1]; exact hv) with h'' | ⟨jb, hjb, hk⟩
          · exact .inl h''
          · exact .inr ⟨inactive, active, by simp, jb, hjb, hk⟩
        · rw [if_neg hstop] at h
          rcases ih _ _ _ _ _ h k v hv with h' | ⟨ia, ac, hmem, rest⟩
          · rcases processInactive_provenance inactive res false k v h' with h'' | ⟨jb, hjb, hk⟩
            · exact .inl h''
            · exact .inr ⟨inactive, active, by simp, jb, hjb, hk⟩
          · exact .inr ⟨ia, ac, List.mem_cons_of_mem _ hmem, rest⟩

theorem pollLoop_keys_nodup : ∀ (events : List PollEvent) (jobs : List JobName)
    (res res' : Blackboard) (jobs2 : List JobName) (stop : Bool),
    pollLoop events jobs res = some (res', jobs2, stop) →
    (res.map Prod.fst).Nodup → (res'.map Prod.fst).Nodup := by
  intro events
  induction events with
  | nil =>
    intro jobs res res' jobs2 stop h hnd
    cases jobs with
    | nil =>
      simp [pollLoop] at h
      rw [← h.1]
      exact hnd
    | cons j js => simp [pollLoop] at h
  | cons ev evs ih =>
    intro jobs res res' jobs2 stop h hnd
    cases jobs with
    | nil =>
      simp [pollLoop] at h
      rw [← h.1]
      exact hnd
    | cons j js =>
      cases ev with
      | commError =>
        rw [pollLoop] at h
        exact ih _ _ _ _ _ h hnd
      | results inactive active =>
        rw [pollLoop] at h
        by_cases hstop : (processInactive inactive res false).2 = true
        · rw [if_pos hstop] at h
          simp only [Option.some.injEq, Prod.mk.injEq] at h
          rw [← h.1]
          exact processInactive_keys_nodup inactive res false hnd
        · rw [if_neg hstop] at h
          exact ih _ _ _ _ _ h (processInactive_keys_nodup inactive res false hnd)

theorem startPhase_ok_names {startO : Rule → Option JobName} :
    ∀ {rules : List Rule} {bb : Blackboard} {log : List Effect} {js : List JobName},
    (∀ r ∈ rules, ∀ j, startO r = some j → getRuleName j = r.name) →
    startPhase rules startO bb = (log, .ok js) →
    js.map getRuleName = rules.map Rule.name := by
  intro rules
  induction rules with
  | nil =>
    intro bb log js _ h
    simp [startPhase] at h
    rw [h.2]
    rfl
  | cons r rest ih =>
    intro bb log js hnames h
    simp only [startPhase] at h
    rcases hres : resolveInputs (extract_subrules r) bb with _ | urls <;> rw [hres] at h
    · simp at h
    · rcases hstart : startO r with _ | j <;> rw [hstart] at h
      · simp at h
      · dsimp only at h
        rcases hrec : startPhase rest startO bb with ⟨log2, res2⟩
        rw [hrec] at h
        rcases res2 with e | js2
        · simp [Except.map] at h
        · simp only [Except.map, Prod.mk.injEq, Except.ok.injEq] at h
          rw [← h.2]
          simp only [List.map_cons]
          rw [ih (fun t ht => hnames t (by simp [ht])) hrec]
          rw [hnames r (by simp) j hstart]

theorem runConcurrent_ok_ret {startO : Rule → Option JobName}
    {backend : List JobName → List PollEvent} {rules : List Rule} {bb : Blackboard}
    {clog : List Effect} {jobs : List JobName} {ret : Blackboard}
    (HstartNames : ∀ r ∈ rules, ∀ j, startO r = some j → getRuleName j = r.name)
    (Hwfe : ∀ ev ∈ backend jobs, ∀ inactive active, ev = PollEvent.results inactive active →
      ∀ p ∈ inactive, p.1 ∈ jobs)
    (h : runConcurrentRules rules startO backend bb = (clog, some (.ok (jobs, ret)))) :
    (ret.map Prod.fst).Nodup ∧
    jobs.map getRuleName = rules.map Rule.name ∧
    ∀ k v, (k, v) ∈ ret → k ∈ rules.map Rule.name ∧ ReadyReported (backend jobs) k v := by
  unfold runConcurrentRules at h
  rcases hsp : startPhase rules startO bb with ⟨slog, sres⟩
  rw [hsp] at h
  rcases sres with e | js
  · simp at h
  · dsimp only at h
    rcases hpl : pollLoop (backend js) js [] with _ | ⟨jr, remaining, stop⟩ <;> rw [hpl] at h
    · simp at h
    · have hjr : jobs = js ∧ ret = jr := by
        rcases stop with _ | _
        · simp at h
          exact ⟨h.2.1.symm, h.2.2.symm⟩
        · rcases remaining with _ | ⟨j0, rem⟩
          · simp at h
            exact ⟨h.2.1.symm, h.2.2.symm⟩
          · simp at h
      obtain ⟨rfl, rfl⟩ := hjr
      have hnd : (ret.map Prod.fst).Nodup :=
        pollLoop_keys_nodup _ _ _ _ _ _ hpl (by simp)
      refine ⟨hnd, startPhase_ok_names HstartNames hsp, ?_⟩
      intro k v hm
      have hget : bbGet ret k = some v := bbGet_of_mem hnd hm
      rcases pollLoop_provenance _ _ _ _ _ _ hpl k v hget with h' | ⟨ia, ac, hmem, jb, hjb, hk⟩
      · simp [bbGet] at h'
      · have hjbmem : jb ∈ jobs := Hwfe _ hmem ia ac rfl (jb, ("ready", v)) hjb
        constructor
        · rw [← startPhase_ok_names HstartNames hsp]
          rw [← hk]
          exact List.mem_map.mpr ⟨jb, hjbmem, rfl⟩
        · exact ⟨ia, ac, hmem, jb, hjb, hk⟩

/-- `C9`: throughout a run of `execute_rule`'s batch loop — the only code
that writes the Result Store; the sequential phase never writes it — for
any well-formed backend and any start oracle whose job handles resolve
back to their rule's name, starting from a store in which every pending
rule's entry is the empty sequence (as `execute_rule` initializes it):
(1) at every state of the run, the entry of every still-pending rule is
the empty sequence — a rule's entry stays empty until and unless that
rule's job completes successfully; (2) at every state, every binding is
either its initial value or exactly the output references the backend
reported `ready` for that rule's started job — an entry is only ever
written with its own job's successful output; and (3) a non-empty entry
is never mutated again: it keeps its value at every state of the run.
Since every loop state again satisfies these hypotheses (by (1) and the
shrinking sub-rule list), (3) applies from any intermediate state
onward, so an entry, once written non-empty, is written exactly once and
never overwritten with a second value. -/
theorem blackboard_write_once (startO : Rule → Option JobName)
    (backends : Nat → List JobName → List PollEvent)
    (Hwf : WellFormedBackend backends) :
    ∀ (fuel : Nat) (subRules : List Rule) (bb : Blackboard) (i : Nat),
      (∀ r ∈ subRules, ∀ j, startO r = some j → getRuleName j = r.name) →
      (subRules.map Rule.name).Nodup →
      (∀ r ∈ subRules, bbGet bb r.name = some []) →
      (∀ st ∈ loopStates startO backends fuel subRules bb i,
        ∀ r ∈ st.1, bbGet st.2 r.name = some []) ∧
      (∀ st ∈ loopStates startO backends fuel subRules bb i, ∀ k v,
        bbGet st.2 k = some v →
        bbGet bb k = some v ∨
          ∃ i2 js, k ∈ js.map getRuleName ∧ ReadyReported (backends i2 js) k v) ∧
      (∀ k v, bbGet bb k = some v → v ≠ [] →
        ∀ st ∈ loopStates startO backends fuel subRules bb i, bbGet st.2 k = some v) := by
  intro fuel
  induction fuel with
  | zero =>
    intro subRules bb i _ _ hpend
    have htr : loopStates startO backends 0 subRules bb i = [(subRules, bb)] := by
      cases subRules <;> simp [loopStates]
    rw [htr]
    refine ⟨?_, ?_, ?_⟩
    · intro st hst
      simp at hst
      rw [hst]
      exact hpend
    · intro st hst k v hv
      simp at hst
      rw [hst] at hv
      exact .inl hv
    · intro k v hv _ st hst
      simp at hst
      rw [hst]
      exact hv
  | succ fuel ih =>
    intro subRules bb i hnames hnd hpend
    cases subRules with
    | nil =>
      have htr : loopStates startO backends (fuel + 1) [] bb i = [([], bb)] := by
        simp [loopStates]
      rw [htr]
      refine ⟨?_, ?_, ?_⟩
      · intro st hst
        simp at hst
        rw [hst]
        exact hpend
      · intro st hst k v hv
        simp at hst
        rw [hst] at hv
        exact .inl hv
      · intro k v hv _ st hst
        simp at hst
        rw [hst]
        exact hv
    | cons r0 rs =>
      rcases hrc : runConcurrentRules (getRunableRules (r0 :: rs) bb) startO (backends i) bb
        with ⟨clog, cres⟩
      rcases cres with _ | cres
      · have htr : loopStates startO backends (fuel + 1) (r0 :: rs) bb i =
            [(r0 :: rs, bb)] := by
          simp only [loopStates]
          rw [hrc]
        rw [htr]
        refine ⟨?_, ?_, ?_⟩
        · intro st hst
          simp at hst
          rw [hst]
          exact hpend
        · intro st hst k v hv
          simp at hst
          rw [hst] at hv
          exact .inl hv
        · intro k v hv _ st hst
          simp at hst
          rw [hst]
          exact hv
      · rcases cres with e | ⟨jobs, ret⟩
        · have htr : loopStates startO backends (fuel + 1) (r0 :: rs) bb i =
              [(r0 :: rs, bb)] := by
            simp only [loopStates]
            rw [hrc]
          rw [htr]
          refine ⟨?_, ?_, ?_⟩
          · intro st hst
            simp at hst
            rw [hst]
            exact hpend
          · intro st hst k v hv
            simp at hst
            rw [hst] at hv
            exact .inl hv
          · intro k v hv _ st hst
            simp at hst
            rw [hst]
            exact hv
        · have htr := @loopStates_ok_cons _ _ fuel _ _ _ _ _ _ _ hrc
          have hrunsub : (getRunableRules (r0 :: rs) bb).Sublist (r0 :: rs) :=
            List.filter_sublist _
          obtain ⟨hretnd, hjnames, hretmem⟩ := runConcurrent_ok_ret
            (fun r hr j hj => hnames r (hrunsub.subset hr) j hj)
            (fun ev hmem ia ac heq p hp => Hwf i jobs ev hmem ia ac heq p hp) hrc
          -- a key bound in ret is a runable rule's name
          have hretname : ∀ k, k ∈ ret.map Prod.fst →
              ∃ q ∈ getRunableRules (r0 :: rs) bb, q.name = k := by
            intro k hk
            obtain ⟨⟨k', v'⟩, hkv, hke⟩ := List.mem_map.mp hk
            obtain ⟨hk1, _⟩ := hretmem k' v' hkv
            obtain ⟨q, hq, hqn⟩ := List.mem_map.mp hk1
            refine ⟨q, hq, ?_⟩
            rw [hqn]
            exact hke
          -- a pending (non-runable) rule's entry is untouched by the fold
          have hputn : ∀ r ∈ r0 :: rs, r ∉ getRunableRules (r0 :: rs) bb →
              bbGet (foldResults bb ret) r.name = bbGet bb r.name := by
            intro r hr hnr
            refine bbGet_foldResults_notMem _ bb r.name ?_
            intro hk
            obtain ⟨q, hq, hqn⟩ := hretname r.name hk
            have : q = r := List.inj_on_of_nodup_map hnd (hrunsub.subset hq) hr hqn
            rw [this] at hq
            exact hnr hq
          -- hypotheses for the recursive call
          have hnames' : ∀ r ∈ (r0 :: rs).filter (notIn (getRunableRules (r0 :: rs) bb)),
              ∀ j, startO r = some j → getRuleName j = r.name := fun r hr =>
            hnames r ((List.filter_sublist _).subset hr)
          have hnd' : (((r0 :: rs).filter
              (notIn (getRunableRules (r0 :: rs) bb))).map Rule.name).Nodup :=
            hnd.sublist ((List.filter_sublist _).map _)
          have hpend' : ∀ r ∈ (r0 :: rs).filter (notIn (getRunableRules (r0 :: rs) bb)),
              bbGet (foldResults bb ret) r.name = some [] := by
            intro r hr
            have hrmem : r ∈ r0 :: rs := (List.filter_sublist _).subset hr
            have hrnot : r ∉ getRunableRules (r0 :: rs) bb := by
              have := List.of_mem_filter hr
              simp [notIn] at this
              exact this
            rw [hputn r hrmem hrnot]
            exact hpend r hrmem
          obtain ⟨ih1, ih2, ih3⟩ := ih ((r0 :: rs).filter
              (notIn (getRunableRules (r0 :: rs) bb))) (foldResults bb ret) (i + 1)
            hnames' hnd' hpend'
          rw [htr]
          refine ⟨?_, ?_, ?_⟩
          · intro st hst
            rcases List.mem_cons.mp hst with rfl | hst
            · exact hpend
            · exact ih1 st hst
          · intro st hst k v hv
            rcases List.mem_cons.mp hst with rfl | hst
            · exact .inl hv
            · rcases ih2 st hst k v hv with h' | h'
              · -- trace back through the batch fold
                by_cases hk : k ∈ ret.map Prod.fst
                · obtain ⟨p, hp, hpk⟩ := List.mem_map.mp hk
                  have hmem2 : (p.1, p.2) ∈ ret := hp
                  have hfold : bbGet (foldResults bb ret) p.1 = some p.2 :=
                    bbGet_foldResults_mem _ bb p.1 p.2 hretnd hmem2
                  rw [hpk] at hfold
                  rw [hfold] at h'
                  simp only [Option.some.injEq] at h'
                  subst h'
                  obtain ⟨hk1, hrep⟩ := hretmem p.1 p.2 hmem2
                  rw [hpk] at hk1 hrep
                  refine .inr ⟨i, jobs, ?_, hrep⟩
                  rw [hjnames]
                  exact hk1
                · rw [bbGet_foldResults_notMem _ bb k hk] at h'
                  exact .inl h'
              · exact .inr h'
          · intro k v hv hvne st hst
            rcases List.mem_cons.mp hst with rfl | hst
            · exact hv
            · refine ih3 k v ?_ hvne st hst
              by_cases hk : k ∈ ret.map Prod.fst
              · obtain ⟨q, hq, hqn⟩ := hretname k hk
                have : bbGet bb q.name = some [] := hpend q (hrunsub.subset hq)
                rw [hqn] at this
                rw [this] at hv
                simp only [Option.some.injEq] at hv
                exact absurd hv.symm hvne
              · rw [bbGet_foldResults_notMem _ bb k hk]
                exact hv

/-- Witness for `C9` at a concrete run: one pending rule `a` with an
initially empty store entry, against the happy backend. -/
theorem blackboard_write_once_witness :
    (∀ st ∈ loopStates (fun r => some (String.append r.name "@1"))
        (happyBackend (fun _ => ["u"])) 1 [Rule.mk "a" []] [("a", [])] 0,
      ∀ r ∈ st.1, bbGet st.2 r.name = some []) ∧
    (∀ st ∈ loopStates (fun r => some (String.append r.name "@1"))
        (happyBackend (fun _ => ["u"])) 1 [Rule.mk "a" []] [("a", [])] 0, ∀ k v,
      bbGet st.2 k = some v →
      bbGet [("a", [])] k = some v ∨
        ∃ i2 js, k ∈ js.map getRuleName ∧
          ReadyReported (happyBackend (fun _ => ["u"]) i2 js) k v) ∧
    (∀ k v, bbGet [("a", [])] k = some v → v ≠ [] →
      ∀ st ∈ loopStates (fun r => some (String.append r.name "@1"))
          (happyBackend (fun _ => ["u"])) 1 [Rule.mk "a" []] [("a", [])] 0,
        bbGet st.2 k = some v) :=
  blackboard_write_once (fun r => some (String.append r.name "@1"))
    (happyBackend (fun _ => ["u"])) (happyBackend_wf _) 1 [Rule.mk "a" []] [("a", [])] 0
    (by
      intro r hr j hj
      simp only [Option.some.injEq] at hj
      subst hj
      fin_cases hr
      decide)
    (by decide) (by decide)

end Inferno
